import Mathlib

/-!
# Verification of the trust-manager CSI driver against its specification

This development shallowly embeds the core algorithms of the
trust-manager-csi-driver repository:

* the `AtomicWriter` directory projection algorithm
  (`third_party/k8s.io/kubernetes/pkg/volume/util`),
* the volume state store (`internal/driver/state`),
* the node server request validation (`internal/driver/server`),
* the bundle writer's openssl-rehash rendering
  (`internal/driver/bundlewriter`), and
* the OpenSSL-compatible certificate subject hash
  (`internal/utils/x509`),

and proves (or refutes) the specification's claims about them.

Paths are modelled as Lean `String`s with Go's byte-length semantics;
filesystem state is modelled explicitly as data (symlink targets, snapshot
directories, visible entries), with failure injection flags standing in for
I/O errors at the two symlink steps of the write algorithm.
-/

set_option linter.unusedVariables false

namespace TrustCSI

/-! ## Go string primitives used by the source -/
/-- Number of bytes a character occupies in UTF-8; Go's `len` on strings
counts bytes, so all length checks in the source are byte counts. -/
def charUtf8Size (c : Char) : Nat :=
  if c.toNat < 0x80 then 1
  else if c.toNat < 0x800 then 2
  else if c.toNat < 0x10000 then 3
  else 4

/-- Go `len(s)` for a string: its UTF-8 byte length. -/
def goLen (s : String) : Nat := (s.data.map charUtf8Size).sum

/-- `strings.Split` on a single-character separator, over character lists.
Go's `Split` of the empty string yields one empty field, and keeps empty
fields between consecutive separators. -/
def splitSep (sep : Char) : List Char → List (List Char)
  | [] => [[]]
  | c :: cs =>
    let rest := splitSep sep cs
    if c = sep then [] :: rest
    else
      match rest with
      | r :: rs => (c :: r) :: rs
      | [] => [[c]]

/-- `strings.Split(s, "/")` (the path separator on Linux). -/
def goSplitSlash (s : String) : List String :=
  (splitSep '/' s.data).map List.asString

/-- Join a list of character lists with a separator character. -/
def joinSep (sep : Char) : List (List Char) → List Char
  | [] => []
  | [l] => l
  | l :: ls => l ++ sep :: joinSep sep ls

/-- Join path segments with `"/"`. -/
def joinSlash (segs : List String) : String :=
  (joinSep '/' (segs.map String.data)).asString

/-- `strings.HasPrefix` over strings, as plain character-list matching. -/
def goHasPref (s pre : String) : Bool := pre.data.isPrefixOf s.data

/-! ## Path validation (`validatePath`, `validatePayload`)

Source: `third_party/.../volume/util/atomic_writer.go`. -/
def maxFileNameLength : Nat := 255

def maxPathLength : Nat := 4096

/-- The distinct rejection reasons of `validatePath`, one per `return fmt.Errorf`
site in the source. -/
inductive PathErr where
  | empty
  | absolute
  | tooLong
  | dotdotSegment
  | nameTooLong
  | dotdotStart
  deriving DecidableEq, Repr

/-- `path.IsAbs`: true iff the path starts with a slash. -/
def goIsAbs (s : String) : Bool := goHasPref s "/"

/-- The per-segment loop of `validatePath`: the first segment equal to `".."`
or longer than 255 bytes produces an error. -/
def segLoopErr : List String → Option PathErr
  | [] => none
  | item :: rest =>
    if item = ".." then some .dotdotSegment
    else if maxFileNameLength < goLen item then some .nameTooLong
    else segLoopErr rest

/-- `validatePath` from the source: rejects empty, absolute, over-long paths,
`".."` segments, over-long segments, and a first segment that starts with
`".."` and is longer than two bytes. -/
def validatePath (targetPath : String) : Option PathErr :=
  if targetPath = "" then some .empty
  else if goIsAbs targetPath then some .absolute
  else if maxPathLength < goLen targetPath then some .tooLong
  else
    let items := goSplitSlash targetPath
    match segLoopErr items with
    | some e => some e
    | none =>
      if goHasPref (items.headD "") ".." ∧ 2 < goLen (items.headD "") then
        some .dotdotStart
      else none

/-- `filepath.Clean` restricted to relative paths without `".."` segments
(the only paths that survive `validatePath`): drop empty and `"."` segments
and re-join; an empty result becomes `"."`. -/
def goCleanRel (s : String) : String :=
  let segs := (goSplitSlash s).filter (fun seg => seg ≠ "" ∧ seg ≠ ".")
  if segs = [] then "." else joinSlash segs

/-! ## Association lists standing in for Go maps -/
/-- Go map read `m[k]`, as first-match lookup (keys are unique whenever the
list was built by `insertVal`). -/
def findVal {α : Type} (k : String) : List (String × α) → Option α
  | [] => none
  | (k', v) :: rest => if k' = k then some v else findVal k rest

/-- Go map write `m[k] = v`: replace in place or append. -/
def insertVal {α : Type} (k : String) (v : α) : List (String × α) → List (String × α)
  | [] => [(k, v)]
  | (k', v') :: rest => if k' = k then (k, v) :: rest else (k', v') :: insertVal k v rest

/-- Go `delete(m, k)` / `os.RemoveAll` of a named directory entry. -/
def eraseVal {α : Type} (k : String) : List (String × α) → List (String × α)
  | [] => []
  | (k', v') :: rest => if k' = k then rest else (k', v') :: eraseVal k rest

/-! ## The atomic writer's data model

Source: `FileProjection` and `AtomicWriter.Write` in
`third_party/.../volume/util/atomic_writer.go`.  The filesystem inside one
target directory is modelled explicitly: the `..data` symlink target, the
`..data_tmp` symlink target, the timestamped snapshot directories (each a
mapping from relative file path to file record), and the set of top-level
user-visible symlink entries.  Lists model sets and maps up to membership. -/
/-- `FileProjection`: content bytes, mode, optional owning uid/gid. -/
structure FileProjection where
  data : List Nat
  mode : Nat
  fsUser : Option Int
  fsGroup : Option Int
  deriving DecidableEq, Repr

/-- A file as left on disk by `writePayloadToDir`: content, the mode forced by
the explicit `os.Chmod`, and the owning uid/gid after the optional chown. -/
structure FileRecord where
  data : List Nat
  mode : Nat
  uid : Int
  gid : Int
  deriving DecidableEq, Repr

/-- A timestamped snapshot directory: relative file path to file record. -/
abbrev Snapshot : Type := List (String × FileRecord)

/-- The reserved data-directory symlink name (`dataDirName`). -/
def dataDirName : String := "..data"

/-- The reserved temporary symlink name (`newDataDirName`). -/
def newDataDirName : String := "..data_tmp"

/-- The state of one target directory: `dataLink` is the target of the
`..data` symlink (`none` when absent), `tmpLink` the target of `..data_tmp`,
`snapshots` the timestamped directories by name, `visible` the top-level
user-visible symlink entries. -/
structure FSState where
  dataLink : Option String
  tmpLink : Option String
  snapshots : List (String × Snapshot)
  visible : List String
  deriving DecidableEq, Repr

/-- The errors `Write` can return in the modelled run (I/O failures other than
the injected step‑8/step‑9 failures are outside the model; reads are total). -/
inductive WErr where
  | invalidPayload : PathErr → WErr
  | symlinkFailed
  | renameFailed
  | removeVisibleFailed
  deriving DecidableEq, Repr

/-- `validatePayload`: iterate the payload, reject on the first invalid path,
otherwise accumulate `cleanPayload[filepath.Clean(k)] = v`. -/
def validatePayloadAux (acc : List (String × FileProjection)) :
    List (String × FileProjection) → Except PathErr (List (String × FileProjection))
  | [] => .ok acc
  | (k, v) :: rest =>
    match validatePath k with
    | some e => .error e
    | none => validatePayloadAux (insertVal (goCleanRel k) v acc) rest

def validatePayload (payload : List (String × FileProjection)) :
    Except PathErr (List (String × FileProjection)) :=
  validatePayloadAux [] payload

/-- `shouldWriteFile`: a missing file must be written, otherwise compare the
new content against the bytes on disk. -/
def shouldWriteFile (snap : Snapshot) (path : String) (content : List Nat) : Bool :=
  match findVal path snap with
  | none => true
  | some r => decide (content ≠ r.data)

/-- `shouldWritePayload`: true iff some payload file is missing or differs in
the old snapshot. -/
def shouldWritePayload (payload : List (String × FileProjection)) (snap : Snapshot) : Bool :=
  payload.any (fun kv => shouldWriteFile snap kv.1 kv.2.data)

/-- All prefixes of a path at separator boundaries, the path itself included.
These are exactly the relative paths `filepath.Walk` visits inside a snapshot
directory, whose directories are the ancestors of its files (the shape
`writePayloadToDir` creates with `MkdirAll`). -/
def slashPrefixes (p : String) : List String :=
  let segs := goSplitSlash p
  (List.range segs.length).map (fun i => joinSlash (segs.take (i + 1)))

/-- The relative paths the walk in `pathsToRemove` inserts: everything under
the snapshot, the root (empty relative path) excluded. -/
def onDiskPaths (snap : Snapshot) : List String :=
  ((snap.map Prod.fst).flatMap slashPrefixes).filter (fun p => p ≠ "")

/-- `filepath.Split` followed by trimming the trailing separator: the
characters before the last slash, or the empty string when there is none. -/
def dropLastSeg (p : String) : String :=
  match (p.data.reverse).dropWhile (fun c => c ≠ '/') with
  | [] => ""
  | _ :: rest => rest.reverse.asString

/-- The `subPath` loop body of `pathsToRemove` over the segments of a cleaned
path: insert the join of all segments, then recurse on the path without its
last segment.  For cleaned payload keys (the only inputs the source feeds it)
this is exactly the Go loop `subPath, _ = filepath.Split(subPath)` with the
trailing separator trimmed.  The first argument is fuel bounding the segment
count (the loop strictly shortens the path each round). -/
def subPathsAux : Nat → List String → List String
  | 0, _ => []
  | _ + 1, [] => []
  | n + 1, seg :: segs =>
    joinSlash (seg :: segs) :: subPathsAux n (seg :: segs).dropLast

def subPaths (p : String) : List String :=
  subPathsAux (goSplitSlash p).length (goSplitSlash p)

/-- `pathsToRemove`: the walked paths of the old snapshot minus the payload
keys and all their ancestor sub-paths. -/
def pathsToRemove (payload : List (String × FileProjection)) (snap : Snapshot) :
    List String :=
  let newPaths := payload.flatMap (fun kv => subPaths kv.1)
  (onDiskPaths snap).filter (fun p => p ∉ newPaths)

/-- The ownership and mode `writePayloadToDir` leaves on one file: the file is
created by the process (owner `wuid`/`wgid`); `os.Chown` runs only when
`FsUser` is non-nil, with the group id defaulted to `-1`, which POSIX `chown`
treats as "leave unchanged". -/
def mkFileRecord (wuid wgid : Int) (fp : FileProjection) : FileRecord :=
  match fp.fsUser with
  | none => ⟨fp.data, fp.mode, wuid, wgid⟩
  | some u =>
    let g := fp.fsGroup.getD (-1)
    ⟨fp.data, fp.mode, if u = -1 then wuid else u, if g = -1 then wgid else g⟩

/-- `writePayloadToDir`: materialize the payload as a snapshot directory. -/
def writePayloadToDir (wuid wgid : Int)
    (payload : List (String × FileProjection)) : Snapshot :=
  payload.foldl (fun snap kv => insertVal kv.1 (mkFileRecord wuid wgid kv.2) snap) []

/-- The top-level component of a payload path: the characters before the first
slash (`createUserVisibleFiles`). -/
def topLevelOf (p : String) : String :=
  (p.data.takeWhile (fun c => c ≠ '/')).asString

/-- `createUserVisibleFiles`: add a symlink for each payload path's top-level
component that has no entry yet. -/
def createUserVisibleFiles (visible : List String)
    (payload : List (String × FileProjection)) : List String :=
  payload.foldl (fun vis kv =>
    let link := topLevelOf kv.1
    if link ∈ vis then vis else vis ++ [link]) visible

/-- `strings.Contains(p, "/")` is false: the path is a volume-root entry. -/
def isTopLevel (p : String) : Bool := ¬ p.data.contains '/'

/-- `removeUserVisiblePaths`: remove every top-level member of `paths` from
the visible layer; `os.Remove` of an absent entry fails, and the last such
error is returned after all removals were attempted. -/
def removeUserVisiblePaths (visible paths : List String) : List String × Bool :=
  (visible.filter (fun v => ¬ (isTopLevel v ∧ v ∈ paths)),
   paths.any (fun p => isTopLevel p ∧ p ∉ visible))

/-- Steps (10)–(12) of `Write`: create missing user-visible links, prune the
removed paths, and delete the previous snapshot(`oldTsDir` is the empty
string when there is nothing to delete, as after the no-op fast path). -/
def writeFinish (st : FSState) (clean : List (String × FileProjection))
    (removable : List String) (oldTsDir : String) : FSState × Option WErr :=
  let st1 := { st with visible := createUserVisibleFiles st.visible clean }
  let pruned := removeUserVisiblePaths st1.visible removable
  let st2 := { st1 with visible := pruned.1 }
  if pruned.2 then (st2, some .removeVisibleFailed)
  else if oldTsDir ≠ "" then
    ({ st2 with snapshots := eraseVal oldTsDir st2.snapshots }, none)
  else (st2, none)

/-- Step (2) of `Write`: the old timestamped directory name read from the
`..data` symlink, the empty string when the link is absent. -/
def oldTsDirOf (st : FSState) : String := st.dataLink.getD ""

/-- The contents of the old timestamped directory (empty when missing: the
walk of a missing directory and the per-file `Lstat`s behave as for an empty
directory). -/
def oldSnapOf (st : FSState) : Snapshot :=
  (findVal (oldTsDirOf st) st.snapshots).getD []

/-- Step (3): the removal set, computed only when an old version exists. -/
def removableOf (st : FSState) (clean : List (String × FileProjection)) :
    List String :=
  if oldTsDirOf st ≠ "" then pathsToRemove clean (oldSnapOf st) else []

/-- Step (4)'s no-op fast-path condition: an old version exists, no payload
file needs writing, and nothing needs removing. -/
def fastPath (st : FSState) (clean : List (String × FileProjection)) : Prop :=
  oldTsDirOf st ≠ "" ∧ shouldWritePayload clean (oldSnapOf st) = false ∧
    removableOf st clean = []

instance (st : FSState) (clean : List (String × FileProjection)) :
    Decidable (fastPath st clean) := by
  unfold fastPath; infer_instance

/-- `AtomicWriter.Write` on Linux (`runtime.GOOS ≠ "windows"`), with `setPerms
= nil` as both in-repo callers pass it.  `wuid`/`wgid` are the writing
process's ids, `tsName` the fresh name `MkdirTemp` picks for the timestamped
directory.  `fail8`/`fail9` inject an I/O failure at the step‑8 symlink
creation and the step‑9 rename; step 8 also fails by itself when `..data_tmp`
already exists, since `os.Symlink` refuses to overwrite (hence on the fail9
branch the incoming `tmpLink` was `none`, and removing the transient
`..data_tmp` restores it to `none`).  On the fast path `oldTsDir` is reset to
the empty string, so step (12) removes nothing. -/
def write (wuid wgid : Int) (st : FSState)
    (payload : List (String × FileProjection)) (tsName : String)
    (fail8 fail9 : Bool) : FSState × Option WErr :=
  match validatePayload payload with
  | .error e => (st, some (.invalidPayload e))
  | .ok clean =>
    if fastPath st clean then writeFinish st clean (removableOf st clean) ""
    else
      -- (5)(6)(7): new timestamped directory holding the payload
      let st1 := { st with
        snapshots := insertVal tsName (writePayloadToDir wuid wgid clean) st.snapshots }
      -- (8)
      if fail8 ∨ st.tmpLink ≠ none then
        ({ st1 with snapshots := eraseVal tsName st1.snapshots }, some .symlinkFailed)
      -- (9)
      else if fail9 then
        ({ st1 with tmpLink := none, snapshots := eraseVal tsName st1.snapshots },
         some .renameFailed)
      else
        writeFinish { st1 with dataLink := some tsName, tmpLink := none } clean
          (removableOf st clean) (oldTsDirOf st)

/-! ## C5: payload validation rejects bad paths before touching disk -/
/-- The spec's rejection conditions for a payload key: empty, absolute,
a `".."` path segment, a path segment longer than 255 bytes, or a total
length over 4096 bytes. -/
def badPayloadKey (k : String) : Prop :=
  k = "" ∨ goIsAbs k = true ∨ ".." ∈ goSplitSlash k ∨
    (∃ seg ∈ goSplitSlash k, maxFileNameLength < goLen seg) ∨
    maxPathLength < goLen k

instance (k : String) : Decidable (badPayloadKey k) := by
  unfold badPayloadKey; infer_instance

/-- A single path segment of 300 characters. -/
def longSegPath : String := (List.replicate 300 'a').asString

/-- A path of 5000 characters in total. -/
def longTotalPath : String :=
  ((List.replicate 2400 'a' ++ ['/']) ++ (List.replicate 2400 'b' ++ ['/'])
    ++ List.replicate 198 'c').asString

/-- `p` is a strict ancestor-directory prefix of `k`: some non-empty relative
remainder lies below it. -/
def isAncestorDirOf (p k : String) : Prop :=
  ∃ rest : String, rest ≠ "" ∧ k = p ++ "/" ++ rest

/-! ## Metadata model (`internal/api/metadata`) -/
/-- `metadata.OutputFormat`. -/
inductive OutputFormat where
  | openSSLRehash
  | concatenatedFile
  deriving DecidableEq, Repr

/-- `metadata.Output`: format, optional owner, target path. -/
structure Output where
  format : OutputFormat
  uid : Option Int
  gid : Option Int
  path : String
  deriving DecidableEq, Repr

/-- `metadata.Metadata`. -/
structure Metadata where
  volumeID : String
  podNamespace : String
  bundle : String
  outputs : List Output
  deriving DecidableEq, Repr

/-! ## Volume state store (`internal/driver/state`) -/
/-- The state of `state.State`: the in-memory volume map, the bundle index
(bundle name → set of volume ids, sets as lists up to membership), and the
persisted per-volume record files keyed by volume id (each file's path is
derived from the id, so the id is the key). -/
structure StoreState where
  volumeToMetadata : List (String × Metadata)
  bundleToVolumeID : List (String × List String)
  records : List (String × Metadata)
  deriving DecidableEq, Repr

/-- `index.Insert`: create a singleton set under an absent key, otherwise add
to the existing set. -/
def indexInsert (idx : List (String × List String)) (k v : String) :
    List (String × List String) :=
  match findVal k idx with
  | none => insertVal k [v] idx
  | some s => insertVal k (if v ∈ s then s else s ++ [v]) idx

/-- `index.Delete`: remove `v` from the set at `k`; prune the key when the
set becomes empty. -/
def indexDelete (idx : List (String × List String)) (k v : String) :
    List (String × List String) :=
  match findVal k idx with
  | none => idx
  | some s =>
    let pruned := s.filter (fun x => x ≠ v)
    if pruned.length = 0 then eraseVal k idx else insertVal k pruned idx

/-- `State.Track`: persist the encoded record to the volume's metadata file,
then insert into the in-memory map and the bundle index. -/
def track (st : StoreState) (meta : Metadata) : StoreState :=
  { st with
    records := insertVal meta.volumeID meta st.records,
    volumeToMetadata := insertVal meta.volumeID meta st.volumeToMetadata,
    bundleToVolumeID := indexInsert st.bundleToVolumeID meta.bundle meta.volumeID }

/-- `State.StopSync` exactly as the source implements it: when the id is
tracked, the bundle-index entry is deleted; the `volumeToMetadata` map entry
and the persisted record file are left in place, and `nil` is returned
(there is no error path).  The source comment reads "Remove from internal
map and index", but no `delete(s.volumeToMetadata, id)` is performed. -/
def stopSync (st : StoreState) (id : String) : StoreState :=
  match findVal id st.volumeToMetadata with
  | none => st
  | some meta =>
    { st with bundleToVolumeID := indexDelete st.bundleToVolumeID meta.bundle id }

/-- `State.GetMetadataForBundle`: the records of the ids the bundle index
holds for the name; a missing map entry yields the zero `Metadata`, as a Go
map read of an absent key does. -/
def getMetadataForBundle (st : StoreState) (name : String) : List Metadata :=
  ((findVal name st.bundleToVolumeID).getD []).map
    (fun id => (findVal id st.volumeToMetadata).getD ⟨"", "", "", []⟩)

/-! ## `path.Clean` and `path.Join` (POSIX `path` package) -/
/-- The segment-stack pass of `path.Clean`: drop empty and `"."` segments,
resolve `".."` against the stack (absolute paths absorb leading `".."`,
relative paths keep it).  The result is reversed (head = last segment). -/
def cleanStack (abs : Bool) (segs : List String) : List String :=
  segs.foldl (fun acc seg =>
    if seg = "" ∨ seg = "." then acc
    else if seg = ".." then
      match acc with
      | [] => if abs then [] else [".."]
      | top :: rest => if top = ".." then seg :: top :: rest else rest
    else seg :: acc) []

/-- `path.Clean`. -/
def goPathClean (s : String) : String :=
  if s = "" then "."
  else
    let abs := goIsAbs s
    let out := (cleanStack abs (goSplitSlash s)).reverse
    if abs then
      if out = [] then "/" else "/" ++ joinSlash out
    else if out = [] then "." else joinSlash out

/-- `path.Join(a, b)`: empty elements are skipped, the rest joined with a
slash and cleaned; all empty yields the empty string. -/
def goPathJoin (a b : String) : String :=
  if a = "" ∧ b = "" then ""
  else if a = "" then goPathClean b
  else if b = "" then goPathClean a
  else goPathClean (a ++ "/" ++ b)

/-- `path.Join("/", p)`, the sanitization `NodePublishVolume` applies to each
requested output path. -/
def goPathJoinRoot (p : String) : String := goPathJoin "/" p

/-! ## Node server request validation (`internal/driver/server`) -/
deriving instance DecidableEq for Except

/-- The fields of a `csi.NodePublishVolumeRequest` the validation reads;
`volumeMountGroup` is `none` when the request carries no mount capability. -/
structure PublishRequest where
  volumeId : String
  targetPath : String
  readonly : Bool
  volumeContext : List (String × String)
  volumeMountGroup : Option String
  deriving DecidableEq, Repr

/-- Go map read on the volume context: absent keys read as `""`. -/
def ctxGet (req : PublishRequest) (k : String) : String :=
  (findVal k req.volumeContext).getD ""

/-- The error sites of the validation prefix of `NodePublishVolume`, one per
`return nil, …` site before the first filesystem mutation. -/
inductive PubErr where
  | notEphemeral
  | notReadonly
  | noNamespace
  | noBundle
  | badGid
  | badFiles
  | badHashes
  | noOutputs
  deriving DecidableEq, Repr

/-- Decimal digit-string parse helper for `strconv.ParseInt`. -/
def parseDigits (l : List Char) : Option Nat :=
  if l = [] then none
  else
    l.foldl (fun acc c =>
      match acc with
      | none => none
      | some n => if '0' ≤ c ∧ c ≤ '9' then some (n * 10 + (c.toNat - 48)) else none)
      (some 0)

/-- `strconv.ParseInt(s, 10, 64)`: optional sign, decimal digits, 64-bit
range check (overflow is an error to the caller). -/
def goParseInt64 (s : String) : Option Int :=
  match s.data with
  | [] => none
  | '+' :: rest =>
    (parseDigits rest).bind
      (fun n => if n ≤ 9223372036854775807 then some (n : Int) else none)
  | '-' :: rest =>
    (parseDigits rest).bind
      (fun n => if n ≤ 9223372036854775808 then some (-(n : Int)) else none)
  | l =>
    (parseDigits l).bind
      (fun n => if n ≤ 9223372036854775807 then some (n : Int) else none)

/-- `splitList` uses `encoding/csv` to read one record.  Modelled for the
quote-free single-line inputs the driver receives: `csv.Reader.Read` of an
empty input returns `io.EOF` (an error to `NodePublishVolume`); otherwise
the line is one record, split on commas with leading space/tab trimmed per
field (`TrimLeadingSpace`). -/
def splitList (s : String) : Except Unit (List String) :=
  if s = "" then .error ()
  else .ok ((splitSep ',' s.data).map
    (fun f => (f.dropWhile (fun c => c = ' ' ∨ c = '\t')).asString))

/-- The gid extraction of `NodePublishVolume`: parse `volume_mount_group`
when present and non-empty. -/
def parseGid (req : PublishRequest) : Except PubErr (Option Int) :=
  match req.volumeMountGroup with
  | none => .ok none
  | some g =>
    if g = "" then .ok none
    else
      match goParseInt64 g with
      | none => .error .badGid
      | some v => .ok (some v)

/-- The validation and metadata-construction prefix of `NodePublishVolume`:
everything before the first filesystem mutation (`os.MkdirAll`).  The
second `namespace == ""` guard is the source's own (the error message there
talks about the bundle, but the condition re-checks the namespace). -/
def nodePublishValidate (req : PublishRequest) : Except PubErr Metadata :=
  if ctxGet req "csi.storage.k8s.io/ephemeral" ≠ "true" then .error .notEphemeral
  else if req.readonly = false then .error .notReadonly
  else if ctxGet req "csi.storage.k8s.io/pod.namespace" = "" then .error .noNamespace
  else if ctxGet req "csi.storage.k8s.io/pod.namespace" = "" then .error .noBundle
  else
    match parseGid req with
    | .error e => .error e
    | .ok gid =>
      match splitList (ctxGet req "trust.cert-manager.io/concatenated-files") with
      | .error _ => .error .badFiles
      | .ok files =>
        match splitList (ctxGet req "trust.cert-manager.io/openssl-rehash") with
        | .error _ => .error .badHashes
        | .ok hashes =>
          let outputs :=
            files.map (fun p => Output.mk .concatenatedFile none gid (goPathJoinRoot p))
              ++ hashes.map (fun p => Output.mk .openSSLRehash none gid (goPathJoinRoot p))
          if outputs.length = 0 then .error .noOutputs
          else
            .ok ⟨req.volumeId, ctxGet req "csi.storage.k8s.io/pod.namespace",
              ctxGet req "trust.cert-manager.io/bundle", outputs⟩

/-! ## C7: NodeUnpublishVolume and partial states -/
/-- The node-side state `NodeUnpublishVolume` touches for one volume. -/
structure NodeFS where
  targetExists : Bool
  targetIsMount : Bool
  rootDirExists : Bool
  store : StoreState
  deriving DecidableEq, Repr

inductive UnpubErr where
  | mountCheckNotExist
  deriving DecidableEq, Repr

/-- `mount.Mounter.IsMountPoint`, modelled from `k8s.io/mount-utils` (a
dependency, not code of this repository): it stats the path and propagates
the not-exist error when the path is missing, otherwise reports whether the
path is a mount point. -/
def isMountPoint (fs : NodeFS) : Except UnpubErr Bool :=
  if fs.targetExists = false then .error .mountCheckNotExist else .ok fs.targetIsMount

/-- `NodeUnpublishVolume`: `StopSync` (which never fails), the mount-point
check (whose error is returned as-is), unmount when mounted, and
`os.RemoveAll` of the volume root — which also deletes the persisted record
file underneath and succeeds when the directory is already gone. -/
def nodeUnpublish (id : String) (fs : NodeFS) : NodeFS × Option UnpubErr :=
  let fs1 := { fs with store := stopSync fs.store id }
  match isMountPoint fs1 with
  | .error e => (fs1, some e)
  | .ok isMnt =>
    let fs2 := if isMnt then { fs1 with targetIsMount := false } else fs1
    let store2 := { fs2.store with records := eraseVal id fs2.store.records }
    ({ fs2 with rootDirExists := false, store := store2 }, none)

/-! ## SHA-1 (`crypto/sha1`), over byte lists, 32-bit words as `Nat % 2^32` -/
/-- Truncate to a 32-bit word. -/
def w32 (n : Nat) : Nat := n % 4294967296

/-- Rotate a 32-bit word left by `k`. -/
def rotl32 (k n : Nat) : Nat := w32 (n * 2 ^ k) + w32 n / 2 ^ (32 - k)

/-- Bitwise complement of a 32-bit word. -/
def not32 (n : Nat) : Nat := 4294967295 - w32 n

/-- The SHA-1 round function, selected by the round index. -/
def sha1F (i b c d : Nat) : Nat :=
  if i < 20 then (b &&& c) ||| (not32 b &&& d)
  else if i < 40 then b ^^^ c ^^^ d
  else if i < 60 then (b &&& c) ||| (b &&& d) ||| (c &&& d)
  else b ^^^ c ^^^ d

/-- The SHA-1 round constants. -/
def sha1K (i : Nat) : Nat :=
  if i < 20 then 0x5A827999
  else if i < 40 then 0x6ED9EBA1
  else if i < 60 then 0x8F1BBCDC
  else 0xCA62C1D6

/-- Big-endian 64-bit length encoding. -/
def be64 (n : Nat) : List Nat :=
  [n / 2 ^ 56 % 256, n / 2 ^ 48 % 256, n / 2 ^ 40 % 256, n / 2 ^ 32 % 256,
   n / 2 ^ 24 % 256, n / 2 ^ 16 % 256, n / 2 ^ 8 % 256, n % 256]

/-- Big-endian 32-bit word encoding. -/
def be32 (n : Nat) : List Nat :=
  [n / 2 ^ 24 % 256, n / 2 ^ 16 % 256, n / 2 ^ 8 % 256, n % 256]

/-- Merkle–Damgård padding: `0x80`, zeros to 56 mod 64, 8-byte bit length. -/
def sha1Pad (msg : List Nat) : List Nat :=
  msg ++ 128 :: List.replicate ((64 - (msg.length + 9) % 64) % 64) 0
    ++ be64 (8 * msg.length)

/-- Group bytes into big-endian 32-bit words. -/
def toWordsBE : List Nat → List Nat
  | a :: b :: c :: d :: rest => (((a * 256 + b) * 256 + c) * 256 + d) :: toWordsBE rest
  | _ => []

/-- The SHA-1 chaining state. -/
structure Sha1St where
  a : Nat
  b : Nat
  c : Nat
  d : Nat
  e : Nat
  deriving Repr

/-- Message-schedule extension, on the reversed word list (newest first). -/
def sha1ExtendRev : Nat → List Nat → List Nat
  | 0, rws => rws
  | n + 1, rws =>
    sha1ExtendRev n
      (rotl32 1 (rws.getD 2 0 ^^^ rws.getD 7 0 ^^^ rws.getD 13 0 ^^^ rws.getD 15 0) :: rws)

/-- The 80-entry message schedule of one block. -/
def sha1Schedule (ws16 : List Nat) : List Nat :=
  (sha1ExtendRev 64 ws16.reverse).reverse

/-- One SHA-1 compression round. -/
def sha1Round (st : Sha1St) (iw : Nat × Nat) : Sha1St :=
  ⟨w32 (rotl32 5 st.a + sha1F iw.1 st.b st.c st.d + st.e + sha1K iw.1 + iw.2),
   st.a, rotl32 30 st.b, st.c, st.d⟩

/-- Compress one 64-byte block into the chaining state. -/
def sha1Compress (h : Sha1St) (block : List Nat) : Sha1St :=
  let t := ((sha1Schedule (toWordsBE block)).enum.foldl sha1Round h)
  ⟨w32 (h.a + t.a), w32 (h.b + t.b), w32 (h.c + t.c), w32 (h.d + t.d), w32 (h.e + t.e)⟩

/-- Fold the blocks; the first argument is the block count. -/
def sha1Blocks : Nat → List Nat → Sha1St → Sha1St
  | 0, _, h => h
  | n + 1, bytes, h => sha1Blocks n (bytes.drop 64) (sha1Compress h (bytes.take 64))

/-- SHA-1 of a byte list: the 20-byte digest. -/
def sha1 (msg : List Nat) : List Nat :=
  let padded := sha1Pad msg
  let h := sha1Blocks (padded.length / 64) padded
    ⟨0x67452301, 0xEFCDAB89, 0x98BADCFE, 0x10325476, 0xC3D2E1F0⟩
  be32 h.a ++ be32 h.b ++ be32 h.c ++ be32 h.d ++ be32 h.e

/-! ## ASN.1 values (`encoding/asn1.RawValue` trees) and DER re-encoding

The subject of a certificate parses into a tree of universal-class values:
primitives carry their content octets, sequences (tag 16) and sets (tag 17)
carry children (`asn1.Unmarshal` sets the compound flag exactly for them).
Tags are below 31, so identifiers are single octets.  Go's asn1 tag numbers:
UTF8String 12, Sequence 16, Set 17, NumericString 18, PrintableString 19,
T61String 20, IA5String 22, GeneralString 27, BMPString 30. -/
mutual
inductive ASN1 where
  | prim (tag : Nat) (content : List Nat)
  | coll (tag : Nat) (children : ASN1List)

inductive ASN1List where
  | nil
  | cons (hd : ASN1) (tl : ASN1List)
end

/-- Big-endian base-256 digits (first argument is fuel, `n` suffices). -/
def b256Aux : Nat → Nat → List Nat
  | 0, _ => []
  | _ + 1, 0 => []
  | f + 1, n => b256Aux f (n / 256) ++ [n % 256]

def b256 (n : Nat) : List Nat := b256Aux n n

/-- DER length octets: short form below 128, long form above. -/
def derLen (n : Nat) : List Nat :=
  if n < 128 then [n] else (128 + (b256 n).length) :: b256 n

mutual
/-- `asn1.Marshal` of a raw value: identifier octet (compound bit `0x20` for
sequence/set), length octets, contents. -/
def encodeASN1 : ASN1 → List Nat
  | .prim tag content => tag :: (derLen content.length ++ content)
  | .coll tag children =>
    (32 + tag) :: (derLen (encodeASN1List children).length ++ encodeASN1List children)

def encodeASN1List : ASN1List → List Nat
  | .nil => []
  | .cons c cs => encodeASN1 c ++ encodeASN1List cs
end

/-- Go `unicode.IsSpace` over the single-byte range (the model's strings are
byte lists; multi-byte Unicode white space is outside the model). -/
def isGoSpaceByte (b : Nat) : Bool :=
  b = 32 ∨ b = 9 ∨ b = 10 ∨ b = 11 ∨ b = 12 ∨ b = 13

/-- `strings.Fields` at the byte level: split on white-space runs, dropping
empty fields.  The accumulator holds the current field reversed. -/
def fieldsBytesAux : List Nat → List Nat → List (List Nat)
  | cur, [] => if cur = [] then [] else [cur.reverse]
  | cur, b :: bs =>
    if isGoSpaceByte b then
      if cur = [] then fieldsBytesAux [] bs
      else cur.reverse :: fieldsBytesAux [] bs
    else fieldsBytesAux (b :: cur) bs

def fieldsBytes (l : List Nat) : List (List Nat) := fieldsBytesAux [] l

/-- `strings.Join(fields, " ")` at the byte level. -/
def joinSpace : List (List Nat) → List Nat
  | [] => []
  | [f] => f
  | f :: fs => f ++ 32 :: joinSpace fs

/-- `strings.ToLower` on a byte (exact for ASCII). -/
def lowerByte (b : Nat) : Nat := if 65 ≤ b ∧ b ≤ 90 then b + 32 else b

/-- `strings.ToLower(strings.Join(strings.Fields(str), " "))`: collapse
white-space runs to single spaces, trim, lowercase. -/
def normBytes (l : List Nat) : List Nat := (joinSpace (fieldsBytes l)).map lowerByte

/-- UTF-8 encoding of a BMP code point (below `0x10000`). -/
def utf8Enc (c : Nat) : List Nat :=
  if c < 128 then [c]
  else if c < 2048 then [192 + c / 64, 128 + c % 64]
  else [224 + c / 4096, 128 + c / 64 % 64, 128 + c % 64]

/-- UCS-2 big-endian (BMPString) decoding to UTF-8 bytes; well-formed
even-length content assumed (odd content is a parse error in the source). -/
def bmpDecode : List Nat → List Nat
  | hi :: lo :: rest => utf8Enc (hi * 256 + lo) ++ bmpDecode rest
  | _ => []

/-- `normalizeASN1StringForHash`: decode the string content per its tag
(BMPString from UCS-2; the single-byte string types carry their bytes),
normalize it, and re-tag as UTF8String. -/
def normString (tag : Nat) (content : List Nat) : ASN1 :=
  .prim 12 (normBytes (if tag = 30 then bmpDecode content else content))

mutual
/-- `normalizeASN1ValueForHash`, the switch of the source: values of tag
UTF8String(12), PrintableString(19), T61String(20), IA5String(22),
GeneralString(27) and BMPString(30) are string-normalized;
Sequence(16)/Set(17) recurse into their children and re-marshal them; every
other tag — including NumericString(18), whose case body in the switch is
empty — is left unchanged. -/
def normalizeValue : ASN1 → ASN1
  | .prim tag content =>
    if tag = 12 then normString 12 content
    else if tag = 19 then normString 19 content
    else if tag = 20 then normString 20 content
    else if tag = 22 then normString 22 content
    else if tag = 27 then normString 27 content
    else if tag = 30 then normString 30 content
    else .prim tag content
  | .coll tag children =>
    if tag = 16 ∨ tag = 17 then .coll tag (normalizeValueList children)
    else .coll tag children

def normalizeValueList : ASN1List → ASN1List
  | .nil => .nil
  | .cons c cs => .cons (normalizeValue c) (normalizeValueList cs)
end

/-- `value.Bytes` of a (normalized) value: content octets for primitives,
the concatenated re-marshalled children for compound values. -/
def contentBytes : ASN1 → List Nat
  | .prim _ c => c
  | .coll _ cs => encodeASN1List cs

/-- Lowercase hex digit. -/
def hexDigit (n : Nat) : Char := Char.ofNat (if n < 10 then 48 + n else 87 + n)

/-- `hex.EncodeToString`. -/
def hexStr (bs : List Nat) : String :=
  (bs.flatMap (fun b => [hexDigit (b / 16), hexDigit (b % 16)])).asString

/-- `CertificateSubjectHash`: normalize the parsed subject, SHA-1 its content
octets, hex-encode the first 4 digest bytes and reorder the 8 hex characters
as `encoded[6:8] + encoded[4:6] + encoded[2:4] + encoded[0:2]`. -/
def subjectHash (subject : ASN1) : String :=
  let encoded := (hexStr ((sha1 (contentBytes (normalizeValue subject))).take 4)).data
  ((encoded.drop 6).take 2 ++ ((encoded.drop 4).take 2
    ++ ((encoded.drop 2).take 2 ++ encoded.take 2))).asString

/-! ### The specification's reading of the algorithm (C8)

`Modelled from the spec`: "recursively normalize: for every string-typed
field, convert to UTF-8, collapse internal whitespace runs to single spaces,
trim, lowercase, and re-tag as UTF8 … take the first 4 bytes of its SHA-1
digest; render as 8 hex characters; byte-swap the 4 byte-pairs (reverse byte
order)".  The string types of the ASN.1 universe handled by Go's
`encoding/asn1` are UTF8String(12), NumericString(18), PrintableString(19),
T61String(20), IA5String(22), GeneralString(27) and BMPString(30). -/
mutual
def specNormalize (tags : List Nat) : ASN1 → ASN1
  | .prim tag content =>
    if tag ∈ tags then normString tag content else .prim tag content
  | .coll tag children =>
    if tag = 16 ∨ tag = 17 then .coll tag (specNormalizeList tags children)
    else .coll tag children

def specNormalizeList (tags : List Nat) : ASN1List → ASN1List
  | .nil => .nil
  | .cons c cs => .cons (specNormalize tags c) (specNormalizeList tags cs)
end

/-- The subject hash as the spec words it, normalizing the given string
tags, with the final step as reversal of the digest's first 4 bytes. -/
def specSubjectHashWith (tags : List Nat) (subject : ASN1) : String :=
  hexStr ((sha1 (contentBytes (specNormalize tags subject))).take 4).reverse

/-- All string-typed fields, NumericString included. -/
def specSubjectHash (subject : ASN1) : String :=
  specSubjectHashWith [12, 18, 19, 20, 22, 27, 30] subject

/-- A subject whose single attribute value is the NumericString `" 1  2 "`:
`RDNSequence [ Set [ Sequence [ OID 2.5.4.3, NumericString " 1  2 " ] ] ]`. -/
def numericSubject : ASN1 :=
  .coll 16 (.cons (.coll 17 (.cons (.coll 16
    (.cons (.prim 6 [85, 4, 3]) (.cons (.prim 18 [32, 49, 32, 32, 50, 32]) .nil)))
    .nil)) .nil)

/-! ## Decimal rendering (`fmt.Sprintf("%d", n)` for a non-negative count) -/
/-- Big-endian decimal digits; the first argument is fuel (`n + 1` always
suffices since the value shrinks by a factor of ten each step). -/
def decDigits : Nat → Nat → List Char
  | 0, _ => []
  | f + 1, n =>
    if n < 10 then [Char.ofNat (48 + n)]
    else decDigits f (n / 10) ++ [Char.ofNat (48 + n % 10)]

/-- The decimal rendering of a natural number. -/
def decRepr (n : Nat) : String := (decDigits (n + 1) n).asString

/-- Decimal re-reading, for injectivity of the rendering. -/
def valDigits (l : List Char) : Nat :=
  l.foldl (fun a c => a * 10 + (c.toNat - 48)) 0

/-! ## Joining a plain file name onto a directory path -/
/-- `strings.TrimLeft(s, "/")`: drop every leading slash. -/
def goTrimLeftSlash (s : String) : String :=
  (s.data.dropWhile (fun c => c = '/')).asString

/-- The directory part `path.Join(a, f)` prepends to a plain file name `f`. -/
def goPathJoinPre (a : String) : String :=
  if a = "" then ""
  else
    let out := (cleanStack (goIsAbs a) (goSplitSlash a)).reverse
    (if goIsAbs a then "/" else "") ++ (if out = [] then "" else joinSlash out ++ "/")

/-! ## `BundleWriter.addRehashFilesToPayload`

`ForEachCertInBundle` hands the callback each certificate of the bundle in
order together with its PEM encoding; a certificate is modelled as its parsed
subject (the hash input) plus that PEM block. -/
/-- One certificate of the bundle: its parsed subject and its PEM bytes. -/
structure Cert where
  subject : ASN1
  pem : List Nat

/-- `count[hash]` on a Go map: zero when the key is absent. -/
def countGet (count : List (String × Nat)) (h : String) : Nat :=
  (findVal h count).getD 0

/-- `fmt.Sprintf("%s.%d", hash, count[hash])`. -/
def rehashFname (h : String) (n : Nat) : String := h ++ "." ++ decRepr n

/-- `strings.TrimLeft(path.Join(output.Path, fname), "/")`. -/
def rehashFpath (out : Output) (h : String) (n : Nat) : String :=
  goTrimLeftSlash (goPathJoin out.path (rehashFname h n))

/-- The loop body of `addRehashFilesToPayload`: hash the subject, build
`<hash>.<count>`, join onto the output path, bump the count, store the PEM
with mode `0440` and the output's uid/gid. -/
def addRehashAux (out : Output) : List Cert → List (String × Nat) →
    List (String × FileProjection) → List (String × FileProjection)
  | [], _, payload => payload
  | c :: rest, count, payload =>
    addRehashAux out rest
      (insertVal (subjectHash c.subject)
        (countGet count (subjectHash c.subject) + 1) count)
      (insertVal
        (rehashFpath out (subjectHash c.subject)
          (countGet count (subjectHash c.subject)))
        ⟨c.pem, 0o440, out.uid, out.gid⟩ payload)

/-- `BundleWriter.addRehashFilesToPayload`: the count map starts empty. -/
def addRehashFilesToPayload (certs : List Cert) (out : Output)
    (payload : List (String × FileProjection)) : List (String × FileProjection) :=
  addRehashAux out certs [] payload

/-- The number of earlier certificates sharing a hash value. -/
def collisionIdx (certs : List Cert) (i : Nat) (h : String) : Nat :=
  (certs.take i).countP (fun c => subjectHash c.subject == h)

/-- Witness data: two certificates with the same subject, hence the same
subject hash, but different PEM blocks. -/
def wRehashCertA : Cert := ⟨.prim 12 [97], [1, 2]⟩

def wRehashCertB : Cert := ⟨.prim 12 [97], [3, 4]⟩

def wRehashOut : Output := ⟨.openSSLRehash, none, none, "/certs"⟩

theorem sanityCheck1 : validatePath "../x" = some .dotdotSegment := by decide

theorem sanityCheck2 : validatePath "/abs/x" = some .absolute := by decide

theorem sanityCheck3 : validatePath "a/b" = none := by decide

theorem sanityCheck4 : validatePath "..data" = some .dotdotStart := by decide

theorem sanityCheck5 : goCleanRel "a//b/./c/" = "a/b/c" := by decide

theorem sanityCheck6 : goCleanRel "." = "." := by decide

theorem segLoopErr_isSome (items : List String)
    (h : ∃ item ∈ items, item = ".." ∨ maxFileNameLength < goLen item) :
    (segLoopErr items).isSome := by
  induction items with
  | nil => simp at h
  | cons a rest ih =>
    by_cases ha : a = ".."
    · simp [segLoopErr, ha]
    · by_cases hl : maxFileNameLength < goLen a
      · simp [segLoopErr, ha, hl]
      · rcases h with ⟨item, hmem, hbad⟩
        rcases List.mem_cons.mp hmem with h1 | h1
        · subst h1
          rcases hbad with h2 | h2
          · exact absurd h2 ha
          · exact absurd h2 hl
        · simpa [segLoopErr, ha, hl] using ih ⟨item, h1, hbad⟩

theorem validatePath_isSome_of_bad (k : String) (h : badPayloadKey k) :
    (validatePath k).isSome := by
  by_cases c1 : k = ""
  · simp [validatePath, c1]
  · by_cases c2 : goIsAbs k = true
    · simp [validatePath, c1, c2]
    · by_cases c3 : maxPathLength < goLen k
      · simp [validatePath, c1, c2, c3]
      · have hseg : ∃ item ∈ goSplitSlash k, item = ".." ∨ maxFileNameLength < goLen item := by
          rcases h with h | h | h | ⟨seg, hs, hl⟩ | h
          · exact absurd h c1
          · exact absurd h c2
          · exact ⟨"..", h, Or.inl rfl⟩
          · exact ⟨seg, hs, Or.inr hl⟩
          · exact absurd h c3
        have := segLoopErr_isSome (goSplitSlash k) hseg
        cases heq : segLoopErr (goSplitSlash k) with
        | none => rw [heq] at this; simp at this
        | some e => simp [validatePath, c1, c2, c3, heq]

theorem validatePayloadAux_error (payload : List (String × FileProjection))
    (h : ∃ kv ∈ payload, badPayloadKey kv.1) (acc : List (String × FileProjection)) :
    ∃ e, validatePayloadAux acc payload = .error e := by
  induction payload generalizing acc with
  | nil => simp at h
  | cons kv rest ih =>
    obtain ⟨k, v⟩ := kv
    cases heq : validatePath k with
    | some e => exact ⟨e, by simp [validatePayloadAux, heq]⟩
    | none =>
      rcases h with ⟨kv', hmem, hbad⟩
      rcases List.mem_cons.mp hmem with h1 | h1
      · have := validatePath_isSome_of_bad kv'.1 hbad
        rw [h1] at this
        simp [heq] at this
      · simpa [validatePayloadAux, heq] using ih ⟨kv', h1, hbad⟩ _

/-- C5: `Write` rejects every payload containing an empty, absolute,
`".."`-containing, over-long-segment or over-long key with a validation
error, and returns with the target directory untouched. -/
theorem write_rejects_bad_payload (wuid wgid : Int) (st : FSState)
    (payload : List (String × FileProjection)) (tsName : String)
    (fail8 fail9 : Bool) (h : ∃ kv ∈ payload, badPayloadKey kv.1) :
    ∃ e, write wuid wgid st payload tsName fail8 fail9
      = (st, some (.invalidPayload e)) := by
  obtain ⟨e, he⟩ := validatePayloadAux_error payload h []
  exact ⟨e, by simp [write, validatePayload, he]⟩

theorem splitSep_no_sep (sep : Char) (l : List Char) (h : sep ∉ l) :
    splitSep sep l = [l] := by
  induction l with
  | nil => rfl
  | cons a as ih =>
    have hc : ¬ (a = sep) := fun hh => h (hh ▸ List.mem_cons_self a as)
    have hrec := ih (fun hm => h (List.mem_cons_of_mem _ hm))
    simp [splitSep, hc, hrec]

theorem goLen_replicate (n : Nat) (c : Char) :
    goLen (List.replicate n c).asString = n * charUtf8Size c := by
  simp [goLen, List.asString, List.map_replicate, List.sum_replicate, smul_eq_mul]

theorem goSplitSlash_longSegPath : goSplitSlash longSegPath = [longSegPath] := by
  unfold goSplitSlash longSegPath
  rw [splitSep_no_sep]
  · rfl
  · intro h
    rw [show ((List.replicate 300 'a').asString).data = List.replicate 300 'a' from rfl,
      List.mem_replicate] at h
    exact absurd h.2 (by decide)

theorem badPayloadKey_longSegPath : badPayloadKey longSegPath := by
  refine Or.inr (Or.inr (Or.inr (Or.inl ⟨longSegPath, ?_, ?_⟩)))
  · rw [goSplitSlash_longSegPath]; exact List.mem_singleton.mpr rfl
  · rw [show goLen longSegPath = 300 by
      have h := goLen_replicate 300 'a'
      rw [show charUtf8Size 'a' = 1 from rfl, Nat.mul_one] at h
      exact h]
    decide

theorem badPayloadKey_longTotalPath : badPayloadKey longTotalPath := by
  refine Or.inr (Or.inr (Or.inr (Or.inr ?_)))
  have h : goLen longTotalPath = 5000 := by
    unfold longTotalPath
    rw [show ∀ l : List Char, goLen l.asString = (l.map charUtf8Size).sum
        from fun l => rfl]
    rw [List.map_append, List.map_append, List.map_append, List.map_append,
      List.sum_append, List.sum_append, List.sum_append, List.sum_append,
      List.map_replicate, List.map_replicate, List.map_replicate,
      List.sum_replicate, List.sum_replicate, List.sum_replicate]
    decide
  rw [h]; decide

/-- Witness for C5 at the four inputs named by the claim: `"../x"`,
`"/abs/x"`, a 300-character segment, and a 5000-character total path. -/
theorem write_rejects_bad_payload_witness :
    (∃ e, write 0 0 ⟨none, none, [], []⟩ [("../x", ⟨[49], 0, none, none⟩)] "..t"
        false false = (⟨none, none, [], []⟩, some (.invalidPayload e)))
    ∧ (∃ e, write 0 0 ⟨none, none, [], []⟩ [("/abs/x", ⟨[49], 0, none, none⟩)] "..t"
        false false = (⟨none, none, [], []⟩, some (.invalidPayload e)))
    ∧ (∃ e, write 0 0 ⟨none, none, [], []⟩ [(longSegPath, ⟨[49], 0, none, none⟩)] "..t"
        false false = (⟨none, none, [], []⟩, some (.invalidPayload e)))
    ∧ (∃ e, write 0 0 ⟨none, none, [], []⟩ [(longTotalPath, ⟨[49], 0, none, none⟩)] "..t"
        false false = (⟨none, none, [], []⟩, some (.invalidPayload e))) :=
  ⟨write_rejects_bad_payload 0 0 _ _ "..t" false false
      ⟨("../x", ⟨[49], 0, none, none⟩), by decide, by decide⟩,
   write_rejects_bad_payload 0 0 _ _ "..t" false false
      ⟨("/abs/x", ⟨[49], 0, none, none⟩), by decide, by decide⟩,
   write_rejects_bad_payload 0 0 _ _ "..t" false false
      ⟨(longSegPath, ⟨[49], 0, none, none⟩), List.mem_singleton.mpr rfl,
       badPayloadKey_longSegPath⟩,
   write_rejects_bad_payload 0 0 _ _ "..t" false false
      ⟨(longTotalPath, ⟨[49], 0, none, none⟩), List.mem_singleton.mpr rfl,
       badPayloadKey_longTotalPath⟩⟩

/-! ## C1: failure at step 8 or step 9 leaves the published state unchanged -/
theorem eraseVal_insertVal {α : Type} (k : String) (v : α) (l : List (String × α))
    (h : findVal k l = none) : eraseVal k (insertVal k v l) = l := by
  induction l with
  | nil => simp [insertVal, eraseVal]
  | cons p rest ih =>
    obtain ⟨k', v'⟩ := p
    by_cases hk : k' = k
    · rw [findVal, if_pos hk] at h
      exact absurd h (by simp)
    · rw [findVal, if_neg hk] at h
      simp [insertVal, eraseVal, hk, ih h]

/-- The finishing steps (10)–(12) either succeed or fail with the
symlink-pruning error; they never produce the step‑8/step‑9 errors. -/
theorem writeFinish_err (st : FSState) (clean : List (String × FileProjection))
    (removable : List String) (oldTsDir : String) :
    (writeFinish st clean removable oldTsDir).2 = none ∨
    (writeFinish st clean removable oldTsDir).2 = some .removeVisibleFailed := by
  simp only [writeFinish]
  by_cases h : (removeUserVisiblePaths (createUserVisibleFiles st.visible clean)
      removable).2 = true
  · rw [if_pos h]; right; rfl
  · rw [if_neg h]
    left
    split_ifs <;> rfl

/-- C1: whenever `Write` fails creating the temporary symlink (step 8) or
renaming it onto the data-directory symlink (step 9), the target directory is
left exactly as it was: the new timestamped snapshot has been removed again,
and the `..data` symlink still points at the prior snapshot. -/
theorem write_step89_failure_keeps_state (wuid wgid : Int) (st : FSState)
    (payload : List (String × FileProjection)) (tsName : String)
    (fail8 fail9 : Bool) (hfresh : findVal tsName st.snapshots = none)
    (herr : (write wuid wgid st payload tsName fail8 fail9).2 = some .symlinkFailed ∨
      (write wuid wgid st payload tsName fail8 fail9).2 = some .renameFailed) :
    (write wuid wgid st payload tsName fail8 fail9).1 = st := by
  cases hv : validatePayload payload with
  | error e =>
    rcases herr with he | he <;> simp [write, hv] at he
  | ok clean =>
    obtain ⟨dl, tl, sn, vis⟩ := st
    have hf : findVal tsName sn = none := hfresh
    by_cases hfp : fastPath ⟨dl, tl, sn, vis⟩ clean
    · exfalso
      rcases writeFinish_err ⟨dl, tl, sn, vis⟩ clean
          (removableOf ⟨dl, tl, sn, vis⟩ clean) "" with h2 | h2 <;>
        rcases herr with he | he <;>
        · simp only [write, hv, if_pos hfp] at he
          rw [he] at h2
          simp at h2
    · by_cases h8 : fail8 = true ∨ (⟨dl, tl, sn, vis⟩ : FSState).tmpLink ≠ none
      · simp only [write, hv, if_neg hfp, if_pos h8]
        simp [eraseVal_insertVal tsName _ sn hf]
      · by_cases h9 : fail9 = true
        · simp only [write, hv, if_neg hfp, if_neg h8, if_pos h9]
          have h0 : tl = none := by
            by_contra hc
            exact h8 (Or.inr hc)
          simp [eraseVal_insertVal tsName _ sn hf, h0]
        · exfalso
          rcases writeFinish_err
              ⟨some tsName, none, insertVal tsName (writePayloadToDir wuid wgid clean) sn, vis⟩
              clean (removableOf ⟨dl, tl, sn, vis⟩ clean)
              (oldTsDirOf ⟨dl, tl, sn, vis⟩) with h2 | h2 <;>
            rcases herr with he | he <;>
            · simp only [write, hv, if_neg hfp, if_neg h8, if_neg h9] at he
              rw [he] at h2
              simp at h2

/-- Witness for C1: with a step‑8 failure injected on a fresh state, `Write`
reports the symlink error and the state is unchanged. -/
theorem write_step89_failure_keeps_state_witness :
    (write 0 0 ⟨none, none, [], []⟩ [("a", ⟨[49], 0o440, none, none⟩)] "..t" true false).1
      = ⟨none, none, [], []⟩ :=
  write_step89_failure_keeps_state 0 0 ⟨none, none, [], []⟩
    [("a", ⟨[49], 0o440, none, none⟩)] "..t" true false rfl (Or.inl (by decide))

/-! ## Separator splitting and joining: the path-prefix structure -/
theorem splitSep_ne_nil (sep : Char) (l : List Char) : splitSep sep l ≠ [] := by
  cases l with
  | nil => simp [splitSep]
  | cons c cs =>
    simp only [splitSep]
    by_cases hc : c = sep
    · simp [hc]
    · rw [if_neg hc]
      cases splitSep sep cs <;> simp

theorem joinSep_splitSep (sep : Char) (l : List Char) :
    joinSep sep (splitSep sep l) = l := by
  induction l with
  | nil => rfl
  | cons c cs ih =>
    by_cases hc : c = sep
    · subst hc
      simp only [splitSep, if_pos rfl]
      cases hs : splitSep c cs with
      | nil => exact absurd hs (splitSep_ne_nil c cs)
      | cons r rs =>
        rw [hs] at ih
        cases rs with
        | nil =>
          simp only [joinSep] at ih ⊢
          simp [ih]
        | cons r2 rs2 =>
          simp only [joinSep] at ih ⊢
          simp [ih]
    · simp only [splitSep, if_neg hc]
      cases hs : splitSep sep cs with
      | nil => exact absurd hs (splitSep_ne_nil sep cs)
      | cons r rs =>
        rw [hs] at ih
        cases rs with
        | nil =>
          simp only [joinSep] at ih ⊢
          rw [ih]
        | cons r2 rs2 =>
          simp only [joinSep] at ih ⊢
          rw [List.cons_append, ih]

theorem splitSep_append_sep (sep : Char) (xs ys : List Char) :
    splitSep sep (xs ++ sep :: ys) = splitSep sep xs ++ splitSep sep ys := by
  induction xs with
  | nil =>
    simp only [List.nil_append, splitSep, if_pos rfl]
    rfl
  | cons x xs ih =>
    by_cases hx : x = sep
    · simp only [List.cons_append, splitSep, if_pos hx, List.append_eq, ih]
    · simp only [List.cons_append, splitSep, if_neg hx, List.append_eq]
      rw [ih]
      cases hs : splitSep sep xs with
      | nil => exact absurd hs (splitSep_ne_nil sep xs)
      | cons r rs => simp

theorem sep_notin_splitSep (sep : Char) (l : List Char) :
    ∀ f ∈ splitSep sep l, sep ∉ f := by
  induction l with
  | nil =>
    intro f hf
    simp [splitSep] at hf
    simp [hf]
  | cons c cs ih =>
    intro f hf
    by_cases hc : c = sep
    · simp only [splitSep, if_pos hc] at hf
      rcases List.mem_cons.mp hf with h1 | h1
      · simp [h1]
      · exact ih f h1
    · simp only [splitSep, if_neg hc] at hf
      cases hs : splitSep sep cs with
      | nil => exact absurd hs (splitSep_ne_nil sep cs)
      | cons r rs =>
        rw [hs] at hf
        rcases List.mem_cons.mp hf with h1 | h1
        · subst h1
          intro hmem
          rcases List.mem_cons.mp hmem with h2 | h2
          · exact hc h2.symm
          · exact ih r (hs ▸ List.mem_cons_self r rs) h2
        · exact ih f (hs ▸ List.mem_cons_of_mem r h1)

theorem joinSlash_goSplitSlash (s : String) : joinSlash (goSplitSlash s) = s := by
  unfold joinSlash goSplitSlash
  rw [List.map_map]
  have hcomp : (String.data ∘ List.asString) = id := by
    funext l
    rfl
  rw [hcomp, List.map_id, joinSep_splitSep]
  cases s
  rfl

theorem goSplitSlash_ne_nil (s : String) : goSplitSlash s ≠ [] := by
  unfold goSplitSlash
  intro h
  exact splitSep_ne_nil '/' s.data (List.map_eq_nil_iff.mp h)

/-- Splitting across an explicit separator splits into the two halves. -/
theorem goSplitSlash_append (a b : String) :
    goSplitSlash (a ++ "/" ++ b) = goSplitSlash a ++ goSplitSlash b := by
  unfold goSplitSlash
  have hdata : (a ++ "/" ++ b).data = a.data ++ '/' :: b.data := by
    simp [String.data_append]
  rw [hdata, splitSep_append_sep, List.map_append]

theorem data_asString (l : List Char) : (List.asString l).data = l := rfl

theorem joinSep_append (sep : Char) (a b : List (List Char))
    (ha : a ≠ []) (hb : b ≠ []) :
    joinSep sep (a ++ b) = joinSep sep a ++ sep :: joinSep sep b := by
  induction a with
  | nil => exact absurd rfl ha
  | cons x xs ih =>
    cases xs with
    | nil =>
      cases b with
      | nil => exact absurd rfl hb
      | cons y ys => simp [joinSep]
    | cons x2 xs2 =>
      have h2 := ih (by simp)
      simp only [List.cons_append] at h2 ⊢
      simp only [joinSep] at h2 ⊢
      rw [h2, List.append_assoc]
      simp

/-- Joining a split-off tail: for nonempty halves the join distributes. -/
theorem joinSlash_append (a b : List String) (ha : a ≠ []) (hb : b ≠ []) :
    joinSlash (a ++ b) = joinSlash a ++ "/" ++ joinSlash b := by
  unfold joinSlash
  rw [List.map_append,
    joinSep_append '/' _ _ (by simpa using ha) (by simpa using hb)]
  apply String.ext
  simp [String.data_append, data_asString]

theorem mem_subPathsAux (n : Nat) :
    ∀ (segs : List String), segs.length ≤ n → ∀ (x : String),
      (x ∈ subPathsAux n segs ↔
        ∃ i, 0 < i ∧ i ≤ segs.length ∧ x = joinSlash (segs.take i)) := by
  induction n with
  | zero =>
    intro segs h x
    have hseg : segs = [] := List.length_eq_zero.mp (Nat.le_zero.mp h)
    subst hseg
    simp only [subPathsAux, List.not_mem_nil, false_iff]
    rintro ⟨i, h0, hle, _⟩
    simp at hle
    omega
  | succ n ih =>
    intro segs h x
    cases segs with
    | nil =>
      simp only [subPathsAux, List.not_mem_nil, false_iff]
      rintro ⟨i, h0, hle, _⟩
      simp at hle
      omega
    | cons seg segs' =>
      have hdl : (seg :: segs').dropLast.length ≤ n := by
        rw [List.length_dropLast]
        simp only [List.length_cons] at h ⊢
        omega
      rw [subPathsAux, List.mem_cons, ih _ hdl x]
      have hlen : (seg :: segs').dropLast.length = segs'.length := by
        rw [List.length_dropLast]
        simp
      constructor
      · rintro (rfl | ⟨i, h0, hle, hx⟩)
        · refine ⟨(seg :: segs').length, by simp, le_refl _, ?_⟩
          rw [List.take_length]
        · rw [hlen] at hle
          refine ⟨i, h0, by simp; omega, ?_⟩
          rw [hx, List.dropLast_eq_take, List.take_take,
            Nat.min_eq_left (by simp only [List.length_cons]; omega)]
      · rintro ⟨i, h0, hle, hx⟩
        simp only [List.length_cons] at hle
        by_cases hi : i ≤ segs'.length
        · right
          refine ⟨i, h0, by rw [hlen]; exact hi, ?_⟩
          rw [hx, List.dropLast_eq_take, List.take_take,
            Nat.min_eq_left (by simp only [List.length_cons]; omega)]
        · left
          have hieq : i = segs'.length + 1 := by omega
          rw [hx, hieq, show segs'.length + 1 = (seg :: segs').length by simp,
            List.take_length]

theorem mem_subPaths (k x : String) :
    x ∈ subPaths k ↔
      ∃ i, 0 < i ∧ i ≤ (goSplitSlash k).length ∧
        x = joinSlash ((goSplitSlash k).take i) :=
  mem_subPathsAux (goSplitSlash k).length (goSplitSlash k) (le_refl _) x

theorem mem_slashPrefixes (p x : String) :
    x ∈ slashPrefixes p ↔
      ∃ i, 0 < i ∧ i ≤ (goSplitSlash p).length ∧
        x = joinSlash ((goSplitSlash p).take i) := by
  unfold slashPrefixes
  simp only [List.mem_map, List.mem_range]
  constructor
  · rintro ⟨i, hi, rfl⟩
    exact ⟨i + 1, by omega, by omega, rfl⟩
  · rintro ⟨i, h0, hle, rfl⟩
    refine ⟨i - 1, by omega, ?_⟩
    congr 2
    omega

theorem joinSlash_cons_ne_empty (s : String) (t : List String) (hs : s ≠ "") :
    joinSlash (s :: t) ≠ "" := by
  cases t with
  | nil =>
    intro h
    apply hs
    apply String.ext
    have := congrArg String.data h
    simpa [joinSlash, joinSep, data_asString] using this
  | cons t1 ts =>
    intro h
    have := congrArg String.data h
    simp [joinSlash, joinSep, data_asString] at this

/-- The slash-boundary prefixes of a cleaned path are exactly the path itself
and its ancestor directories. -/
theorem take_char (k : String) (hk : ∀ seg ∈ goSplitSlash k, seg ≠ "")
    (x : String) :
    (∃ i, 0 < i ∧ i ≤ (goSplitSlash k).length ∧
        x = joinSlash ((goSplitSlash k).take i))
      ↔ (x = k ∨ isAncestorDirOf x k) := by
  constructor
  · rintro ⟨i, h0, hle, rfl⟩
    by_cases hin : i = (goSplitSlash k).length
    · left
      rw [hin, List.take_length, joinSlash_goSplitSlash]
    · right
      have hlt : i < (goSplitSlash k).length := lt_of_le_of_ne hle hin
      have hsplit : goSplitSlash k =
          (goSplitSlash k).take i ++ (goSplitSlash k).drop i :=
        (List.take_append_drop i (goSplitSlash k)).symm
      have htake_ne : (goSplitSlash k).take i ≠ [] := by
        apply List.length_pos.mp
        rw [List.length_take]
        omega
      have hdrop_ne : (goSplitSlash k).drop i ≠ [] := by
        apply List.length_pos.mp
        rw [List.length_drop]
        omega
      refine ⟨joinSlash ((goSplitSlash k).drop i), ?_, ?_⟩
      · obtain ⟨d, ds, hd⟩ : ∃ d ds, (goSplitSlash k).drop i = d :: ds := by
          cases hdd : (goSplitSlash k).drop i with
          | nil => exact absurd hdd hdrop_ne
          | cons d ds => exact ⟨d, ds, rfl⟩
        rw [hd]
        apply joinSlash_cons_ne_empty
        exact hk d (by
          have : d ∈ (goSplitSlash k).drop i := hd ▸ List.mem_cons_self d ds
          exact List.mem_of_mem_drop this)
      · conv_lhs => rw [← joinSlash_goSplitSlash k, hsplit]
        exact joinSlash_append _ _ htake_ne hdrop_ne
  · rintro (rfl | ⟨rest, hrest, hk2⟩)
    · refine ⟨(goSplitSlash x).length, ?_, le_refl _, ?_⟩
      · have := goSplitSlash_ne_nil x
        cases h : goSplitSlash x with
        | nil => exact absurd h this
        | cons a as => simp [h]
      · rw [List.take_length, joinSlash_goSplitSlash]
    · subst hk2
      refine ⟨(goSplitSlash x).length, ?_, ?_, ?_⟩
      · have := goSplitSlash_ne_nil x
        cases h : goSplitSlash x with
        | nil => exact absurd h this
        | cons a as => simp [h]
      · rw [goSplitSlash_append]
        simp
      · rw [goSplitSlash_append, List.take_left, joinSlash_goSplitSlash]

theorem ne_empty_of_self_or_anc (f p : String)
    (hf : ∀ seg ∈ goSplitSlash f, seg ≠ "")
    (h : p = f ∨ isAncestorDirOf p f) : p ≠ "" := by
  rintro rfl
  rcases h with rfl | ⟨rest, hrest, hk⟩
  · exact hf "" (by rw [show goSplitSlash "" = [""] from rfl]; simp) rfl
  · apply hf ""
    · rw [hk, goSplitSlash_append]
      rw [show goSplitSlash "" = [""] from rfl]
      simp
    · rfl

/-- Membership in the walked on-disk path set of a snapshot with cleaned file
paths: the files and every ancestor directory of a file. -/
theorem mem_onDiskPaths (snap : Snapshot) (p : String)
    (hsnap : ∀ f ∈ snap.map Prod.fst, ∀ seg ∈ goSplitSlash f, seg ≠ "") :
    p ∈ onDiskPaths snap ↔
      ∃ f ∈ snap.map Prod.fst, (p = f ∨ isAncestorDirOf p f) := by
  unfold onDiskPaths
  rw [List.mem_filter]
  simp only [List.mem_flatMap, decide_eq_true_eq]
  constructor
  · rintro ⟨⟨f, hf, hp⟩, hne⟩
    exact ⟨f, hf, (take_char f (hsnap f hf) p).mp ((mem_slashPrefixes f p).mp hp)⟩
  · rintro ⟨f, hf, hor⟩
    exact ⟨⟨f, hf, (mem_slashPrefixes f p).mpr ((take_char f (hsnap f hf) p).mpr hor)⟩,
      ne_empty_of_self_or_anc f p (hsnap f hf) hor⟩

/-! ## Association-list and payload lemmas -/
theorem findVal_insertVal_self {α : Type} (k : String) (v : α)
    (l : List (String × α)) : findVal k (insertVal k v l) = some v := by
  induction l with
  | nil => simp [insertVal, findVal]
  | cons p rest ih =>
    obtain ⟨k', v'⟩ := p
    by_cases hk : k' = k
    · simp [insertVal, findVal, hk]
    · simp [insertVal, findVal, hk, ih]

theorem findVal_insertVal_ne {α : Type} (k k' : String) (v : α)
    (l : List (String × α)) (h : k' ≠ k) :
    findVal k (insertVal k' v l) = findVal k l := by
  induction l with
  | nil => simp [insertVal, findVal, h]
  | cons p rest ih =>
    obtain ⟨k2, v2⟩ := p
    by_cases hk : k2 = k'
    · subst hk
      simp [insertVal, findVal, h]
    · by_cases hk2 : k2 = k
      · subst hk2
        simp [insertVal, findVal, hk, Ne.symm h, findVal_insertVal_self]
      · simp [insertVal, findVal, hk, hk2, ih]

theorem mem_keys_insertVal {α : Type} (x k : String) (v : α)
    (l : List (String × α)) :
    x ∈ (insertVal k v l).map Prod.fst ↔ x = k ∨ x ∈ l.map Prod.fst := by
  induction l with
  | nil => simp [insertVal]
  | cons p rest ih =>
    obtain ⟨k', v'⟩ := p
    by_cases hk : k' = k
    · subst hk
      simp [insertVal]
    · simp only [insertVal, if_neg hk, List.map_cons, List.mem_cons, ih]
      tauto

theorem keys_nodup_insertVal {α : Type} (k : String) (v : α)
    (l : List (String × α)) (h : (l.map Prod.fst).Nodup) :
    ((insertVal k v l).map Prod.fst).Nodup := by
  induction l with
  | nil => simp [insertVal]
  | cons p rest ih =>
    obtain ⟨k', v'⟩ := p
    simp only [List.map_cons, List.nodup_cons] at h
    by_cases hk : k' = k
    · subst hk
      simpa [insertVal] using h
    · simp only [insertVal, if_neg hk, List.map_cons, List.nodup_cons]
      refine ⟨?_, ih h.2⟩
      rw [mem_keys_insertVal]
      rintro (h1 | h1)
      · exact hk h1
      · exact h.1 h1

theorem findVal_of_mem_nodup {α : Type} (k : String) (v : α)
    (l : List (String × α)) (hnd : (l.map Prod.fst).Nodup)
    (h : (k, v) ∈ l) : findVal k l = some v := by
  induction l with
  | nil => simp at h
  | cons p rest ih =>
    obtain ⟨k', v'⟩ := p
    simp only [List.map_cons, List.nodup_cons] at hnd
    rcases List.mem_cons.mp h with h1 | h1
    · have h1a : k = k' := congrArg Prod.fst h1
      have h1b : v = v' := congrArg Prod.snd h1
      subst h1a
      subst h1b
      simp [findVal]
    · have hne : k' ≠ k := by
        rintro rfl
        exact hnd.1 (List.mem_map.mpr ⟨(k', v), h1, rfl⟩)
      simp [findVal, hne, ih hnd.2 h1]

theorem mem_of_findVal {α : Type} (k : String) (v : α) (l : List (String × α))
    (h : findVal k l = some v) : (k, v) ∈ l := by
  induction l with
  | nil => simp [findVal] at h
  | cons p rest ih =>
    obtain ⟨k', v'⟩ := p
    by_cases hk : k' = k
    · subst hk
      rw [findVal, if_pos rfl] at h
      simp only [Option.some.injEq] at h
      subst h
      exact List.mem_cons_self ..
    · rw [findVal, if_neg hk] at h
      exact List.mem_cons_of_mem _ (ih h)

/-! ## Properties of `validatePayload` output: cleaned, duplicate-free keys -/
theorem splitSep_joinSep (sep : Char) (segs : List (List Char))
    (hne : segs ≠ []) (hsep : ∀ s ∈ segs, sep ∉ s) :
    splitSep sep (joinSep sep segs) = segs := by
  induction segs with
  | nil => exact absurd rfl hne
  | cons x xs ih =>
    cases xs with
    | nil =>
      simpa [joinSep] using splitSep_no_sep sep x (hsep x (List.mem_cons_self ..))
    | cons x2 xs2 =>
      have hx : sep ∉ x := hsep x (List.mem_cons_self ..)
      have hrest : splitSep sep (joinSep sep (x2 :: xs2)) = x2 :: xs2 :=
        ih (by simp) (fun s hs => hsep s (List.mem_cons_of_mem _ hs))
      rw [show joinSep sep (x :: x2 :: xs2) = x ++ sep :: joinSep sep (x2 :: xs2)
          from rfl,
        splitSep_append_sep, splitSep_no_sep sep x hx, hrest]
      rfl

theorem goSplitSlash_joinSlash (segs : List String) (hne : segs ≠ [])
    (hsep : ∀ s ∈ segs, '/' ∉ s.data) : goSplitSlash (joinSlash segs) = segs := by
  unfold goSplitSlash joinSlash
  rw [data_asString, splitSep_joinSep '/' _ (by simpa using hne)
    (by intro s hs; obtain ⟨t, ht, rfl⟩ := List.mem_map.mp hs; exact hsep t ht)]
  rw [List.map_map]
  have : (List.asString ∘ String.data) = id := by
    funext t
    cases t
    rfl
  rw [this, List.map_id]

/-- Keys produced by `filepath.Clean` on a validated path have no empty
segments. -/
theorem goCleanRel_segs (s : String) :
    ∀ seg ∈ goSplitSlash (goCleanRel s), seg ≠ "" := by
  unfold goCleanRel
  by_cases h : (goSplitSlash s).filter (fun seg => decide (seg ≠ "" ∧ seg ≠ ".")) = []
  · rw [if_pos h]
    intro seg hseg
    rw [show goSplitSlash "." = ["."] from rfl] at hseg
    simp at hseg
    simp [hseg]
  · rw [if_neg h]
    intro seg hseg
    rw [goSplitSlash_joinSlash _ h ?sep] at hseg
    · have := List.of_mem_filter hseg
      simp at this
      exact this.1
    case sep =>
      intro t ht
      have ht2 : t ∈ goSplitSlash s := (List.mem_filter.mp ht).1
      obtain ⟨u, hu, rfl⟩ := List.mem_map.mp ht2
      rw [data_asString]
      exact sep_notin_splitSep '/' s.data u hu

theorem validatePayloadAux_invariant (payload acc clean : List (String × FileProjection))
    (hacc : ∀ kv ∈ acc, (∀ seg ∈ goSplitSlash kv.1, seg ≠ ""))
    (hnd : (acc.map Prod.fst).Nodup)
    (h : validatePayloadAux acc payload = .ok clean) :
    (∀ kv ∈ clean, (∀ seg ∈ goSplitSlash kv.1, seg ≠ "")) ∧
      (clean.map Prod.fst).Nodup := by
  induction payload generalizing acc with
  | nil =>
    simp only [validatePayloadAux, Except.ok.injEq] at h
    subst h
    exact ⟨hacc, hnd⟩
  | cons kv rest ih =>
    obtain ⟨k, v⟩ := kv
    cases hval : validatePath k with
    | some e => rw [validatePayloadAux, hval] at h; cases h
    | none =>
      rw [validatePayloadAux, hval] at h
      refine ih _ ?_ (keys_nodup_insertVal _ _ _ hnd) h
      intro kv' hkv'
      have hkeys : kv'.1 = goCleanRel k ∨ kv'.1 ∈ acc.map Prod.fst :=
        (mem_keys_insertVal kv'.1 _ _ _).mp (List.mem_map.mpr ⟨kv', hkv', rfl⟩)
      rcases hkeys with heq | hmem
      · rw [heq]
        exact goCleanRel_segs k
      · obtain ⟨kv2, hkv2, hfst⟩ := List.mem_map.mp hmem
        intro seg hseg
        have h2 := hacc kv2 hkv2
        rw [hfst] at h2
        exact h2 seg hseg

/-- `validatePayload` yields cleaned keys without duplicates. -/
theorem validatePayload_ok (payload clean : List (String × FileProjection))
    (h : validatePayload payload = .ok clean) :
    (∀ kv ∈ clean, (∀ seg ∈ goSplitSlash kv.1, seg ≠ "")) ∧
      (clean.map Prod.fst).Nodup :=
  validatePayloadAux_invariant payload [] clean (by simp) (by simp) h

/-! ## What `writePayloadToDir` leaves on disk -/
theorem findVal_foldl_preserve (wuid wgid : Int) (k : String)
    (rest : List (String × FileProjection)) (init : Snapshot)
    (h : ∀ kv ∈ rest, kv.1 ≠ k) :
    findVal k (rest.foldl
        (fun snap kv => insertVal kv.1 (mkFileRecord wuid wgid kv.2) snap) init)
      = findVal k init := by
  induction rest generalizing init with
  | nil => rfl
  | cons kv r ih =>
    rw [List.foldl_cons, ih _ (fun kv' h' => h kv' (List.mem_cons_of_mem _ h'))]
    exact findVal_insertVal_ne k kv.1 _ init (h kv (List.mem_cons_self ..))

theorem findVal_writePayload_foldl (wuid wgid : Int) (k : String)
    (fp : FileProjection) (payload : List (String × FileProjection))
    (init : Snapshot) (hnd : (payload.map Prod.fst).Nodup)
    (h : (k, fp) ∈ payload) :
    findVal k (payload.foldl
        (fun snap kv => insertVal kv.1 (mkFileRecord wuid wgid kv.2) snap) init)
      = some (mkFileRecord wuid wgid fp) := by
  induction payload generalizing init with
  | nil => simp at h
  | cons kv r ih =>
    simp only [List.map_cons, List.nodup_cons] at hnd
    rcases List.mem_cons.mp h with h1 | h1
    · have h1a : k = kv.1 := congrArg Prod.fst h1
      have h1b : fp = kv.2 := congrArg Prod.snd h1
      rw [List.foldl_cons, findVal_foldl_preserve]
      · rw [h1a, findVal_insertVal_self, h1b]
      · intro kv' hkv' heq
        exact hnd.1 (List.mem_map.mpr ⟨kv', hkv', by rw [heq]; exact h1a⟩)
    · rw [List.foldl_cons]
      exact ih _ hnd.2 h1

theorem findVal_writePayloadToDir (wuid wgid : Int) (k : String)
    (fp : FileProjection) (payload : List (String × FileProjection))
    (hnd : (payload.map Prod.fst).Nodup) (h : (k, fp) ∈ payload) :
    findVal k (writePayloadToDir wuid wgid payload)
      = some (mkFileRecord wuid wgid fp) :=
  findVal_writePayload_foldl wuid wgid k fp payload [] hnd h

theorem keys_writePayload_foldl (wuid wgid : Int) (x : String)
    (payload : List (String × FileProjection)) (init : Snapshot) :
    x ∈ (payload.foldl
        (fun snap kv => insertVal kv.1 (mkFileRecord wuid wgid kv.2) snap)
        init).map Prod.fst
      ↔ x ∈ init.map Prod.fst ∨ ∃ kv ∈ payload, x = kv.1 := by
  induction payload generalizing init with
  | nil => simp
  | cons kv r ih =>
    rw [List.foldl_cons, ih, mem_keys_insertVal]
    simp only [List.mem_cons]
    constructor
    · rintro ((h1 | h1) | h1)
      · exact Or.inr ⟨kv, Or.inl rfl, h1⟩
      · exact Or.inl h1
      · obtain ⟨kv', hkv', rfl⟩ := h1
        exact Or.inr ⟨kv', Or.inr hkv', rfl⟩
    · rintro (h1 | ⟨kv', (rfl | hkv'), rfl⟩)
      · exact Or.inl (Or.inr h1)
      · exact Or.inl (Or.inl rfl)
      · exact Or.inr ⟨kv', hkv', rfl⟩

theorem mem_keys_writePayloadToDir (wuid wgid : Int) (x : String)
    (payload : List (String × FileProjection)) :
    x ∈ (writePayloadToDir wuid wgid payload).map Prod.fst ↔
      ∃ kv ∈ payload, x = kv.1 := by
  unfold writePayloadToDir
  rw [keys_writePayload_foldl]
  simp

/-! ## User-visible entry creation -/
theorem createUserVisibleFiles_subset (payload : List (String × FileProjection))
    (vis : List String) (v : String) (h : v ∈ vis) :
    v ∈ createUserVisibleFiles vis payload := by
  unfold createUserVisibleFiles
  induction payload generalizing vis with
  | nil => exact h
  | cons kv r ih =>
    rw [List.foldl_cons]
    apply ih
    dsimp only
    split_ifs with h1
    · exact h
    · exact List.mem_append_left _ h

theorem mem_createUserVisibleFiles (payload : List (String × FileProjection))
    (vis : List String) (kv : String × FileProjection) (h : kv ∈ payload) :
    topLevelOf kv.1 ∈ createUserVisibleFiles vis payload := by
  induction payload generalizing vis with
  | nil => simp at h
  | cons kv2 r ih =>
    rcases List.mem_cons.mp h with h1 | h1
    · subst h1
      show topLevelOf kv.1 ∈ List.foldl _ _ (kv :: r)
      rw [List.foldl_cons]
      apply createUserVisibleFiles_subset r
      dsimp only
      split_ifs with h2
      · exact h2
      · exact List.mem_append_right _ (List.mem_singleton.mpr rfl)
    · show topLevelOf kv.1 ∈ List.foldl _ _ (kv2 :: r)
      rw [List.foldl_cons]
      exact ih _ h1

theorem createUserVisibleFiles_fixpoint (payload : List (String × FileProjection))
    (vis : List String) (h : ∀ kv ∈ payload, topLevelOf kv.1 ∈ vis) :
    createUserVisibleFiles vis payload = vis := by
  unfold createUserVisibleFiles
  induction payload with
  | nil => rfl
  | cons kv2 r ih =>
    rw [List.foldl_cons]
    have hl : topLevelOf kv2.1 ∈ vis := h kv2 (List.mem_cons_self ..)
    show List.foldl _ (if topLevelOf kv2.1 ∈ vis then vis else vis ++ [topLevelOf kv2.1]) r = vis
    rw [if_pos hl]
    exact ih (fun kv h' => h kv (List.mem_cons_of_mem _ h'))

/-! ## The top-level component is the first path segment -/
theorem takeWhile_splitSep_head (l : List Char) :
    ∀ r rs, splitSep '/' l = r :: rs →
      l.takeWhile (fun c => decide (c ≠ '/')) = r := by
  induction l with
  | nil =>
    intro r rs h
    simp only [splitSep] at h
    injection h with h1 h2
  | cons c cs ih =>
    intro r rs h
    by_cases hc : c = '/'
    · simp only [splitSep, if_pos hc] at h
      injection h with h1 h2
      subst hc
      simp [← h1, List.takeWhile]
    · simp only [splitSep, if_neg hc] at h
      cases hs : splitSep '/' cs with
      | nil => exact absurd hs (splitSep_ne_nil '/' cs)
      | cons r2 rs2 =>
        rw [hs] at h
        injection h with h1 h2
        rw [← h1, List.takeWhile_cons, if_pos (by simp [hc]), ih r2 rs2 hs]

theorem joinSlash_singleton (s : String) : joinSlash [s] = s := by
  cases s
  rfl

theorem topLevelOf_eq_take_one (p : String) :
    topLevelOf p = joinSlash ((goSplitSlash p).take 1) := by
  unfold topLevelOf goSplitSlash
  cases hs : splitSep '/' p.data with
  | nil => exact absurd hs (splitSep_ne_nil '/' p.data)
  | cons r rs =>
    rw [takeWhile_splitSep_head p.data r rs hs]
    simp only [List.map_cons, List.take_succ_cons, List.take_zero]
    exact (joinSlash_singleton _).symm

theorem topLevelOf_mem_subPaths (p : String) : topLevelOf p ∈ subPaths p := by
  rw [mem_subPaths]
  refine ⟨1, Nat.one_pos, ?_, topLevelOf_eq_take_one p⟩
  have h := goSplitSlash_ne_nil p
  cases hs : goSplitSlash p with
  | nil => exact absurd hs h
  | cons r rs => simp

/-! ## C3: the removal set equals on-disk minus keys and their ancestors -/
/-- C3: over a prior snapshot with cleaned paths, the removal set holds
exactly the on-disk relative paths (files and their ancestor directories)
that are neither payload keys nor ancestor-directory prefixes of a payload
key; only top-level members of that set are pruned from the visible layer;
and in the concrete scenario of the claim, republishing `{b/c}` after
`{a, b/c}` removes the visible entry `a` and keeps `b`. -/
theorem pathsToRemove_formula :
    (∀ (clean : List (String × FileProjection)) (snap : Snapshot) (p : String),
      (∀ kv ∈ clean, ∀ seg ∈ goSplitSlash kv.1, seg ≠ "") →
      (∀ f ∈ snap.map Prod.fst, ∀ seg ∈ goSplitSlash f, seg ≠ "") →
      (p ∈ pathsToRemove clean snap ↔
        ((∃ f ∈ snap.map Prod.fst, p = f ∨ isAncestorDirOf p f) ∧
          ¬ ∃ kv ∈ clean, p = kv.1 ∨ isAncestorDirOf p kv.1)))
    ∧ (∀ (visible paths : List String) (v : String),
        v ∈ (removeUserVisiblePaths visible paths).1 ↔
          v ∈ visible ∧ ¬ (isTopLevel v = true ∧ v ∈ paths))
    ∧ (("a" ∉ ((write 0 0
          ((write 0 0 ⟨none, none, [], []⟩
            [("a", ⟨[49], 0o440, none, none⟩), ("b/c", ⟨[50], 0o440, none, none⟩)]
            "..ts1" false false).1)
          [("b/c", ⟨[50], 0o440, none, none⟩)] "..ts2" false false).1).visible)
      ∧ ("b" ∈ ((write 0 0
          ((write 0 0 ⟨none, none, [], []⟩
            [("a", ⟨[49], 0o440, none, none⟩), ("b/c", ⟨[50], 0o440, none, none⟩)]
            "..ts1" false false).1)
          [("b/c", ⟨[50], 0o440, none, none⟩)] "..ts2" false false).1).visible)) := by
  refine ⟨?_, ?_, by decide⟩
  · intro clean snap p hclean hsnap
    unfold pathsToRemove
    rw [List.mem_filter]
    simp only [decide_eq_true_eq]
    constructor
    · rintro ⟨hmem, hnotin⟩
      refine ⟨(mem_onDiskPaths snap p hsnap).mp hmem, ?_⟩
      rintro ⟨kv, hkv, hor⟩
      exact hnotin (List.mem_flatMap.mpr ⟨kv, hkv,
        (mem_subPaths kv.1 p).mpr ((take_char kv.1 (hclean kv hkv) p).mpr hor)⟩)
    · rintro ⟨hdisk, hnot⟩
      refine ⟨(mem_onDiskPaths snap p hsnap).mpr hdisk, ?_⟩
      intro hmem
      obtain ⟨kv, hkv, hp⟩ := List.mem_flatMap.mp hmem
      exact hnot ⟨kv, hkv,
        (take_char kv.1 (hclean kv hkv) p).mp ((mem_subPaths kv.1 p).mp hp)⟩
  · intro visible paths v
    unfold removeUserVisiblePaths
    rw [List.mem_filter]
    cases htl : isTopLevel v <;> simp [htl]

/-- Witness for C3 at a concrete snapshot and payload: with old files
`{a, b/c}` and new payload `{b/c}`, the removal-set membership equivalence is
instantiated at `"a"`, and the visible-layer pruning equivalence at a
concrete visible list. -/
theorem pathsToRemove_formula_witness :
    ("a" ∈ pathsToRemove [("b/c", ⟨[50], 0o440, none, none⟩)]
        [("a", ⟨[49], 0o440, 0, 0⟩), ("b/c", ⟨[50], 0o440, 0, 0⟩)] ↔
      ((∃ f ∈ ([("a", (⟨[49], 0o440, 0, 0⟩ : FileRecord)),
          ("b/c", ⟨[50], 0o440, 0, 0⟩)] : Snapshot).map Prod.fst,
          "a" = f ∨ isAncestorDirOf "a" f) ∧
        ¬ ∃ kv ∈ [("b/c", (⟨[50], 0o440, none, none⟩ : FileProjection))],
          "a" = kv.1 ∨ isAncestorDirOf "a" kv.1)) ∧
    ("a" ∈ (removeUserVisiblePaths ["a", "b"] ["a"]).1 ↔
      "a" ∈ ["a", "b"] ∧ ¬ (isTopLevel "a" = true ∧ "a" ∈ ["a"])) :=
  ⟨pathsToRemove_formula.1 _ _ "a" (by decide) (by decide),
   pathsToRemove_formula.2.1 ["a", "b"] ["a"] "a"⟩

/-! ## C10: no ownership change when `FsUser` is nil -/
/-- C10: a payload entry with `FsUser = nil` is written with the writing
process's own uid and gid — `os.Chown` is never called for it, even when
`FsGroup` is set; and when `FsUser` is set, the written uid is `FsUser`. -/
theorem writePayloadToDir_no_chown_without_fsUser (wuid wgid : Int)
    (payload : List (String × FileProjection)) (k : String) (fp : FileProjection)
    (hnd : (payload.map Prod.fst).Nodup) (hmem : (k, fp) ∈ payload) :
    (fp.fsUser = none →
      findVal k (writePayloadToDir wuid wgid payload)
        = some ⟨fp.data, fp.mode, wuid, wgid⟩) ∧
    (∀ u : Int, fp.fsUser = some u → u ≠ -1 →
      ∃ r, findVal k (writePayloadToDir wuid wgid payload) = some r ∧ r.uid = u) := by
  constructor
  · intro hnil
    rw [findVal_writePayloadToDir wuid wgid k fp payload hnd hmem]
    unfold mkFileRecord
    rw [hnil]
  · intro u hu hne
    rw [findVal_writePayloadToDir wuid wgid k fp payload hnd hmem]
    refine ⟨_, rfl, ?_⟩
    unfold mkFileRecord
    rw [hu]
    simp [hne]

/-- Witness for C10: an entry with `FsGroup = some 7` but `FsUser = nil` keeps
the writing process's uid 100 and gid 200. -/
theorem writePayloadToDir_no_chown_without_fsUser_witness :
    findVal "a" (writePayloadToDir 100 200 [("a", ⟨[49], 0o440, none, some 7⟩)])
      = some ⟨[49], 0o440, 100, 200⟩ :=
  (writePayloadToDir_no_chown_without_fsUser 100 200
    [("a", ⟨[49], 0o440, none, some 7⟩)] "a" ⟨[49], 0o440, none, some 7⟩
    (by decide) (List.mem_singleton.mpr rfl)).1 rfl

/-! ## C2: the no-op fast path and idempotence of `Write` -/
theorem shouldWritePayload_false (clean : List (String × FileProjection))
    (snap : Snapshot)
    (h : ∀ kv ∈ clean, ∃ r, findVal kv.1 snap = some r ∧ r.data = kv.2.data) :
    shouldWritePayload clean snap = false := by
  unfold shouldWritePayload
  rw [List.any_eq_false]
  intro kv hkv
  obtain ⟨r, hr, hd⟩ := h kv hkv
  unfold shouldWriteFile
  rw [hr]
  simp [hd]

theorem removeUserVisiblePaths_nil (vis : List String) :
    removeUserVisiblePaths vis [] = (vis, false) := by
  unfold removeUserVisiblePaths
  simp

theorem writeFinish_empty_removable (st : FSState)
    (clean : List (String × FileProjection)) :
    writeFinish st clean [] ""
      = ({ st with visible := createUserVisibleFiles st.visible clean }, none) := by
  obtain ⟨dl, tl, sn, vis⟩ := st
  simp [writeFinish, removeUserVisiblePaths_nil]

/-- On the fast path, `Write` only ensures the user-visible entries exist. -/
theorem write_fastPath_eq (wuid wgid : Int) (st : FSState)
    (payload clean : List (String × FileProjection)) (tsName : String)
    (hv : validatePayload payload = .ok clean) (hfp : fastPath st clean)
    (f8 f9 : Bool) :
    write wuid wgid st payload tsName f8 f9
      = ({ st with visible := createUserVisibleFiles st.visible clean }, none) := by
  simp only [write, hv, if_pos hfp]
  rw [hfp.2.2]
  exact writeFinish_empty_removable st clean

theorem mkFileRecord_data (wuid wgid : Int) (fp : FileProjection) :
    (mkFileRecord wuid wgid fp).data = fp.data := by
  cases h : fp.fsUser <;> simp [mkFileRecord, h]

theorem findVal_eraseVal_ne {α : Type} (k k' : String) (l : List (String × α))
    (h : k ≠ k') : findVal k (eraseVal k' l) = findVal k l := by
  induction l with
  | nil => rfl
  | cons p rest ih =>
    obtain ⟨k2, v2⟩ := p
    by_cases h2 : k2 = k'
    · subst h2
      rw [eraseVal, if_pos rfl, findVal, if_neg (fun hh => h hh.symm)]
    · by_cases h3 : k2 = k
      · subst h3
        rw [eraseVal, if_neg h2, findVal, if_pos rfl, findVal, if_pos rfl]
      · rw [eraseVal, if_neg h2, findVal, if_neg h3, findVal, if_neg h3, ih]

theorem dataLink_eq_some_oldTsDir (st : FSState) (h : oldTsDirOf st ≠ "") :
    st.dataLink = some (oldTsDirOf st) := by
  unfold oldTsDirOf at *
  cases hd : st.dataLink with
  | none => rw [hd] at h; simp at h
  | some s => simp [hd]

/-- A successful non-fast-path `Write` publishes the new snapshot: the fields
of the resulting state. -/
theorem write_success_full (wuid wgid : Int) (st : FSState)
    (payload clean : List (String × FileProjection)) (tsName : String)
    (st' : FSState)
    (hv : validatePayload payload = .ok clean) (hfp : ¬ fastPath st clean)
    (hw : write wuid wgid st payload tsName false false = (st', none)) :
    st.tmpLink = none ∧
    st'.dataLink = some tsName ∧
    st'.snapshots = (if oldTsDirOf st ≠ "" then
        eraseVal (oldTsDirOf st)
          (insertVal tsName (writePayloadToDir wuid wgid clean) st.snapshots)
      else insertVal tsName (writePayloadToDir wuid wgid clean) st.snapshots) ∧
    st'.visible = (removeUserVisiblePaths
        (createUserVisibleFiles st.visible clean) (removableOf st clean)).1 := by
  simp only [write, hv, if_neg hfp] at hw
  by_cases h8 : (false = true ∨ st.tmpLink ≠ none)
  · rw [if_pos h8] at hw
    have := congrArg Prod.snd hw
    simp at this
  · rw [if_neg h8, if_neg (by simp)] at hw
    have htl : st.tmpLink = none := by
      by_contra hc
      exact h8 (Or.inr hc)
    refine ⟨htl, ?_⟩
    simp only [writeFinish] at hw
    by_cases hbad : (removeUserVisiblePaths
        (createUserVisibleFiles
          ({ st with
            snapshots := insertVal tsName (writePayloadToDir wuid wgid clean) st.snapshots,
            dataLink := some tsName, tmpLink := none } : FSState).visible clean)
        (removableOf st clean)).2 = true
    · rw [if_pos hbad] at hw
      have := congrArg Prod.snd hw
      simp at this
    · rw [if_neg hbad] at hw
      by_cases ho : oldTsDirOf st ≠ ""
      · rw [if_pos ho] at hw
        have h1 := congrArg Prod.fst hw
        simp only at h1
        rw [if_pos ho, ← h1]
        exact ⟨rfl, rfl, rfl⟩
      · rw [if_neg ho] at hw
        have h1 := congrArg Prod.fst hw
        simp only at h1
        rw [if_neg ho, ← h1]
        exact ⟨rfl, rfl, rfl⟩

/-- C2: when every payload file already matches the old snapshot byte for
byte and the removal set is empty, `Write` succeeds while creating no new
snapshot, leaving the data-directory symlink and every file untouched, and
it still creates any missing user-visible entries; consequently a second
`Write` with the same payload right after a successful one is a no-op that
creates no snapshot directory. -/
theorem write_noop_when_unchanged :
    (∀ (wuid wgid : Int) (st : FSState)
       (payload clean : List (String × FileProjection)) (tsName : String),
       validatePayload payload = .ok clean →
       oldTsDirOf st ≠ "" →
       (∀ kv ∈ clean, ∃ r, findVal kv.1 (oldSnapOf st) = some r ∧ r.data = kv.2.data) →
       pathsToRemove clean (oldSnapOf st) = [] →
       (write wuid wgid st payload tsName false false
          = ({ st with visible := createUserVisibleFiles st.visible clean }, none) ∧
        ∀ kv ∈ clean, topLevelOf kv.1
          ∈ (write wuid wgid st payload tsName false false).1.visible))
    ∧ (∀ (wuid wgid : Int) (st st' : FSState)
        (payload : List (String × FileProjection)) (ts₁ ts₂ : String),
        findVal ts₁ st.snapshots = none →
        st.dataLink ≠ some ts₁ →
        ts₁ ≠ "" →
        write wuid wgid st payload ts₁ false false = (st', none) →
        write wuid wgid st' payload ts₂ false false = (st', none)) := by
  constructor
  · intro wuid wgid st payload clean tsName hv hold hbytes hrm
    have hfp : fastPath st clean :=
      ⟨hold, shouldWritePayload_false clean _ hbytes, by
        unfold removableOf
        rw [if_pos hold]
        exact hrm⟩
    have heq := write_fastPath_eq wuid wgid st payload clean tsName hv hfp false false
    refine ⟨heq, ?_⟩
    intro kv hkv
    rw [heq]
    exact mem_createUserVisibleFiles clean st.visible kv hkv
  · intro wuid wgid st st' payload ts₁ ts₂ hfresh hdl hts hw
    cases hv : validatePayload payload with
    | error e =>
      simp only [write, hv] at hw
      rw [Prod.ext_iff] at hw
      simp at hw
    | ok clean =>
      obtain ⟨hclean, hnd⟩ := validatePayload_ok payload clean hv
      by_cases hfp : fastPath st clean
      · have heq := write_fastPath_eq wuid wgid st payload clean ts₁ hv hfp false false
        rw [heq] at hw
        have hst' : ({ st with visible := createUserVisibleFiles st.visible clean }
            : FSState) = st' := congrArg Prod.fst hw
        have hfp' : fastPath st' clean := by
          rw [← hst']
          exact hfp
        rw [write_fastPath_eq wuid wgid st' payload clean ts₂ hv hfp' false false]
        have hfix : createUserVisibleFiles st'.visible clean = st'.visible := by
          apply createUserVisibleFiles_fixpoint
          intro kv hkv
          rw [← hst']
          exact mem_createUserVisibleFiles clean st.visible kv hkv
        rw [hfix]
      · obtain ⟨htl, hdl', hsn, hvis⟩ :=
          write_success_full wuid wgid st payload clean ts₁ st' hv hfp hw
        have h1 : oldTsDirOf st' = ts₁ := by
          unfold oldTsDirOf
          rw [hdl']
          rfl
        have hne : ts₁ ≠ oldTsDirOf st := by
          intro hcontra
          by_cases ho : oldTsDirOf st ≠ ""
          · exact hdl (by rw [dataLink_eq_some_oldTsDir st ho, hcontra])
          · simp only [ne_eq, not_not] at ho
            exact hts (hcontra.trans ho)
        have h2 : oldSnapOf st' = writePayloadToDir wuid wgid clean := by
          unfold oldSnapOf
          rw [h1, hsn]
          by_cases ho : oldTsDirOf st ≠ ""
          · rw [if_pos ho, findVal_eraseVal_ne ts₁ (oldTsDirOf st) _ hne,
              findVal_insertVal_self]
            rfl
          · rw [if_neg ho, findVal_insertVal_self]
            rfl
        have hkeys : ∀ f ∈ (writePayloadToDir wuid wgid clean).map Prod.fst,
            ∀ seg ∈ goSplitSlash f, seg ≠ "" := by
          intro f hf
          obtain ⟨kv, hkv, rfl⟩ := (mem_keys_writePayloadToDir wuid wgid f clean).mp hf
          exact hclean kv hkv
        have hsw : shouldWritePayload clean (oldSnapOf st') = false := by
          rw [h2]
          apply shouldWritePayload_false
          intro kv hkv
          exact ⟨mkFileRecord wuid wgid kv.2,
            findVal_writePayloadToDir wuid wgid kv.1 kv.2 clean hnd hkv,
            (mkFileRecord_data wuid wgid kv.2).symm ▸ rfl⟩
        have hrm : pathsToRemove clean (oldSnapOf st') = [] := by
          rw [h2]
          unfold pathsToRemove
          rw [List.filter_eq_nil_iff]
          intro p hp
          simp only [decide_eq_true_eq, not_not]
          obtain ⟨f, hf, hor⟩ :=
            (mem_onDiskPaths (writePayloadToDir wuid wgid clean) p hkeys).mp hp
          obtain ⟨kv, hkv, rfl⟩ := (mem_keys_writePayloadToDir wuid wgid f clean).mp hf
          exact List.mem_flatMap.mpr ⟨kv, hkv,
            (mem_subPaths kv.1 p).mpr ((take_char kv.1 (hclean kv hkv) p).mpr hor)⟩
        have hfp' : fastPath st' clean := by
          refine ⟨by rw [h1]; exact hts, hsw, ?_⟩
          unfold removableOf
          rw [if_pos (by rw [h1]; exact hts), hrm]
        rw [write_fastPath_eq wuid wgid st' payload clean ts₂ hv hfp' false false]
        have hfix : createUserVisibleFiles st'.visible clean = st'.visible := by
          apply createUserVisibleFiles_fixpoint
          intro kv hkv
          rw [hvis]
          unfold removeUserVisiblePaths
          rw [List.mem_filter]
          refine ⟨mem_createUserVisibleFiles clean _ kv hkv, ?_⟩
          simp only [decide_eq_true_eq]
          rintro ⟨_, hmem⟩
          unfold removableOf at hmem
          by_cases ho : oldTsDirOf st ≠ ""
          · rw [if_pos ho] at hmem
            unfold pathsToRemove at hmem
            have h3 := (List.mem_filter.mp hmem).2
            simp only [decide_eq_true_eq] at h3
            exact h3 (List.mem_flatMap.mpr ⟨kv, hkv, topLevelOf_mem_subPaths kv.1⟩)
          · rw [if_neg ho] at hmem
            simp at hmem
        rw [hfix]

/-- Witness for C2: a state already holding the payload byte-for-byte takes
the fast path, and a successful publish from an empty target directory is
idempotent: the second call returns the first call's state unchanged. -/
theorem write_noop_when_unchanged_witness :
    (write 0 0 ⟨some "..ts", none, [("..ts", [("a", ⟨[49], 0o440, 0, 0⟩)])], ["a"]⟩
        [("a", ⟨[49], 0o440, none, none⟩)] "..t2" false false
      = (⟨some "..ts", none, [("..ts", [("a", ⟨[49], 0o440, 0, 0⟩)])],
          createUserVisibleFiles ["a"] [("a", ⟨[49], 0o440, none, none⟩)]⟩, none))
    ∧ (write 0 0
        (⟨some "..ts1", none,
          [("..ts1", [("a", ⟨[49], 0o440, 0, 0⟩)])], ["a"]⟩ : FSState)
        [("a", ⟨[49], 0o440, none, none⟩)] "..ts2" false false
      = (⟨some "..ts1", none, [("..ts1", [("a", ⟨[49], 0o440, 0, 0⟩)])], ["a"]⟩, none)) :=
  ⟨(write_noop_when_unchanged.1 0 0
      ⟨some "..ts", none, [("..ts", [("a", ⟨[49], 0o440, 0, 0⟩)])], ["a"]⟩
      [("a", ⟨[49], 0o440, none, none⟩)] [("a", ⟨[49], 0o440, none, none⟩)] "..t2"
      rfl (by decide)
      (by
        intro kv hkv
        rw [List.mem_singleton.mp hkv]
        exact ⟨⟨[49], 0o440, 0, 0⟩, by decide, by decide⟩)
      (by decide)).1,
   write_noop_when_unchanged.2 0 0
      ⟨none, none, [], []⟩
      ⟨some "..ts1", none, [("..ts1", [("a", ⟨[49], 0o440, 0, 0⟩)])], ["a"]⟩
      [("a", ⟨[49], 0o440, none, none⟩)] "..ts1" "..ts2"
      rfl (by decide) (by decide) (by decide)⟩

/-- C4 (code bug): after `Track` of volume `v1` for bundle `b`, `StopSync
"v1"` deletes the bundle-index entry and `GetMetadataForBundle "b"` no longer
returns the record, and the persisted record file survives — but the
in-memory `volumeToMetadata` entry is NOT removed, contradicting both the
claim and the source's own comment "Remove from internal map and index". -/
theorem stopSync_leaves_map_entry :
    ((stopSync (track ⟨[], [], []⟩ ⟨"v1", "ns", "b", []⟩) "v1").volumeToMetadata
        = [("v1", ⟨"v1", "ns", "b", []⟩)])
    ∧ (findVal "b"
        (stopSync (track ⟨[], [], []⟩ ⟨"v1", "ns", "b", []⟩) "v1").bundleToVolumeID
        = none)
    ∧ (getMetadataForBundle
        (stopSync (track ⟨[], [], []⟩ ⟨"v1", "ns", "b", []⟩) "v1") "b" = [])
    ∧ (findVal "v1" (stopSync (track ⟨[], [], []⟩ ⟨"v1", "ns", "b", []⟩) "v1").records
        = some ⟨"v1", "ns", "b", []⟩) := by
  decide

theorem sanityCheck7 : goPathClean "/../x" = "/x" := by decide

theorem sanityCheck8 : goPathClean "a/../b" = "b" := by decide

theorem sanityCheck9 : goPathClean "../a" = "../a" := by decide

theorem sanityCheck10 : goPathJoinRoot "../../etc/passwd" = "/etc/passwd" := by decide

/-- C6 (code bug): a request with no source bundle name sails through
validation with `bundle = ""` — the guard that should check the bundle
re-checks the namespace — while the other three rejection conditions of the
claim (not ephemeral, not read-only, zero outputs) do produce errors. -/
theorem nodePublishValidate_missing_bundle_not_rejected :
    (nodePublishValidate ⟨"v1", "/t", true,
        [("csi.storage.k8s.io/ephemeral", "true"),
         ("csi.storage.k8s.io/pod.namespace", "ns"),
         ("trust.cert-manager.io/concatenated-files", "certs.pem"),
         ("trust.cert-manager.io/openssl-rehash", "hashes")], none⟩
      = .ok ⟨"v1", "ns", "",
          [⟨.concatenatedFile, none, none, "/certs.pem"⟩,
           ⟨.openSSLRehash, none, none, "/hashes"⟩]⟩)
    ∧ (nodePublishValidate ⟨"v1", "/t", true,
        [("csi.storage.k8s.io/pod.namespace", "ns"),
         ("trust.cert-manager.io/concatenated-files", "certs.pem")], none⟩
      = .error .notEphemeral)
    ∧ (nodePublishValidate ⟨"v1", "/t", false,
        [("csi.storage.k8s.io/ephemeral", "true"),
         ("csi.storage.k8s.io/pod.namespace", "ns"),
         ("trust.cert-manager.io/concatenated-files", "certs.pem")], none⟩
      = .error .notReadonly)
    ∧ (nodePublishValidate ⟨"v1", "/t", true,
        [("csi.storage.k8s.io/ephemeral", "true"),
         ("csi.storage.k8s.io/pod.namespace", "ns"),
         ("trust.cert-manager.io/bundle", "b")], none⟩
      = .error .badFiles) := by
  decide

/-- C7 counterexample: when the target path is already missing, the
mount-point check's not-exist error is returned instead of success — the
unpublish operation is not idempotent over that partial state. -/
theorem nodeUnpublish_missing_target_errors :
    (nodeUnpublish "v1" ⟨false, false, true, ⟨[], [], []⟩⟩).2
      = some .mountCheckNotExist := by
  decide

/-- C7 (amended): unpublish succeeds and retries succeed from any partial
state in which the target path itself still exists — not a mount point,
volume directories already gone, volume untracked are all tolerated; only a
missing target path produces an error (from the mount-point check). -/
theorem nodeUnpublish_idempotent_when_target_exists (id : String) (fs : NodeFS)
    (h : fs.targetExists = true) :
    (nodeUnpublish id fs).2 = none ∧
    (nodeUnpublish id (nodeUnpublish id fs).1).2 = none := by
  obtain ⟨te, tm, rd, store⟩ := fs
  cases tm <;> simp [nodeUnpublish, isMountPoint, h] at h ⊢ <;> simp [h]

/-- Witness for C7's amended claim: a partial state (not a mount point,
private directories already deleted, volume not tracked) unpublishes
successfully, twice. -/
theorem nodeUnpublish_idempotent_when_target_exists_witness :
    (nodeUnpublish "v1" ⟨true, false, false, ⟨[], [], []⟩⟩).2 = none ∧
    (nodeUnpublish "v1" (nodeUnpublish "v1" ⟨true, false, false, ⟨[], [], []⟩⟩).1).2
      = none :=
  nodeUnpublish_idempotent_when_target_exists "v1" ⟨true, false, false, ⟨[], [], []⟩⟩ rfl

set_option maxRecDepth 100000 in
theorem sanityCheck11 : sha1 [] =
    [0xda, 0x39, 0xa3, 0xee, 0x5e, 0x6b, 0x4b, 0x0d, 0x32, 0x55,
     0xbf, 0xef, 0x95, 0x60, 0x18, 0x90, 0xaf, 0xd8, 0x07, 0x09] := by decide

set_option maxRecDepth 100000 in
theorem sanityCheck12 : sha1 [97, 98, 99] =
    [0xa9, 0x99, 0x3e, 0x36, 0x47, 0x06, 0x81, 0x6a, 0xba, 0x3e,
     0x25, 0x71, 0x78, 0x50, 0xc2, 0x6c, 0x9c, 0xd0, 0xd8, 0x9d] := by decide

set_option maxRecDepth 1000000 in
/-- C8 counterexample: on a subject holding a NumericString field, the hash
the code computes differs from the hash the claim describes — the code
leaves NumericString untouched (its switch case is empty, mirroring
OpenSSL's canonicalization mask), while the claim normalizes every
string-typed field. -/
theorem subjectHash_numericString_counterexample :
    subjectHash numericSubject ≠ specSubjectHash numericSubject := by
  decide

mutual
theorem normalizeValue_eq_spec : (v : ASN1) →
    normalizeValue v = specNormalize [12, 19, 20, 22, 27, 30] v
  | .prim tag content => by
    by_cases hmem : tag ∈ [12, 19, 20, 22, 27, 30]
    · have hm2 := hmem
      simp only [List.mem_cons, List.not_mem_nil, or_false] at hm2
      rcases hm2 with rfl | rfl | rfl | rfl | rfl | rfl <;>
        simp [normalizeValue, specNormalize]
    · have hm2 := hmem
      simp only [List.mem_cons, List.not_mem_nil, or_false, not_or] at hm2
      obtain ⟨h12, h19, h20, h22, h27, h30⟩ := hm2
      simp [normalizeValue, specNormalize, h12, h19, h20, h22, h27, h30, hmem]
  | .coll tag children => by
    by_cases h : tag = 16 ∨ tag = 17 <;>
      simp [normalizeValue, specNormalize, h, normalizeValueList_eq_spec children]

theorem normalizeValueList_eq_spec : (l : ASN1List) →
    normalizeValueList l = specNormalizeList [12, 19, 20, 22, 27, 30] l
  | .nil => rfl
  | .cons c cs => by
    rw [normalizeValueList, specNormalizeList, normalizeValue_eq_spec c,
      normalizeValueList_eq_spec cs]
end

theorem sha1_length (msg : List Nat) : (sha1 msg).length = 20 := by
  simp [sha1, be32]

theorem take4_shape : ∀ (l : List Nat), 4 ≤ l.length →
    ∃ b0 b1 b2 b3, l.take 4 = [b0, b1, b2, b3]
  | _ :: _ :: _ :: _ :: _, _ => ⟨_, _, _, _, rfl⟩
  | [], h => by simp at h
  | [_], h => by simp at h
  | [_, _], h => by simp at h
  | [_, _, _], h => by simp at h

/-- C8 (amended): the hash the code computes equals the spec's description
with NumericString excluded from the normalized string types — normalize
the remaining string-typed fields to UTF8, re-encode, SHA-1, and render the
first 4 digest bytes in reversed byte order as 8 hex characters. -/
theorem subjectHash_eq_spec_without_numeric (v : ASN1) :
    subjectHash v = specSubjectHashWith [12, 19, 20, 22, 27, 30] v := by
  unfold subjectHash specSubjectHashWith
  rw [normalizeValue_eq_spec v]
  obtain ⟨b0, b1, b2, b3, hb⟩ := take4_shape
    (sha1 (contentBytes (specNormalize [12, 19, 20, 22, 27, 30] v)))
    (by rw [sha1_length]; omega)
  rw [hb]
  rfl

theorem sanityCheck13 : decRepr 0 = "0" := by decide

theorem sanityCheck14 : decRepr 1 = "1" := by decide

theorem sanityCheck15 : decRepr 42 = "42" := by decide

theorem valDigits_append_one (a : List Char) (c : Char) :
    valDigits (a ++ [c]) = valDigits a * 10 + (c.toNat - 48) := by
  unfold valDigits
  rw [List.foldl_append]
  rfl

theorem toNat_ofNat_digit : ∀ d, d < 10 → (Char.ofNat (48 + d)).toNat = 48 + d := by
  decide

theorem valDigits_decDigits : ∀ (f n : Nat), n < 10 ^ f →
    valDigits (decDigits f n) = n := by
  intro f
  induction f with
  | zero =>
    intro n h
    interval_cases n
    rfl
  | succ f ih =>
    intro n h
    by_cases h10 : n < 10
    · rw [decDigits, if_pos h10]
      unfold valDigits
      simp [toNat_ofNat_digit n h10]
    · rw [decDigits, if_neg h10, valDigits_append_one,
        ih (n / 10) (by rw [pow_succ] at h; omega),
        toNat_ofNat_digit (n % 10) (Nat.mod_lt _ (by norm_num))]
      omega

theorem decDigits_val_eq (n : Nat) : valDigits (decDigits (n + 1) n) = n :=
  valDigits_decDigits (n + 1) n
    (lt_of_lt_of_le (Nat.lt_pow_self (by norm_num) n)
      (Nat.pow_le_pow_right (by norm_num) (Nat.le_succ n)))

theorem decRepr_inj (m n : Nat) (h : decRepr m = decRepr n) : m = n := by
  have hd : decDigits (m + 1) m = decDigits (n + 1) n := by
    have := congrArg String.data h
    simpa [decRepr, data_asString] using this
  have h1 := decDigits_val_eq m
  rw [hd, decDigits_val_eq n] at h1
  exact h1.symm

theorem decDigits_chars : ∀ (f n : Nat), ∀ ch ∈ decDigits f n,
    ∃ d, d < 10 ∧ ch = Char.ofNat (48 + d) := by
  intro f
  induction f with
  | zero => intro n ch hch; simp [decDigits] at hch
  | succ f ih =>
    intro n ch hch
    by_cases h10 : n < 10
    · rw [decDigits, if_pos h10] at hch
      simp at hch
      exact ⟨n, h10, hch⟩
    · rw [decDigits, if_neg h10] at hch
      rcases List.mem_append.mp hch with h1 | h1
      · exact ih (n / 10) ch h1
      · simp at h1
        exact ⟨n % 10, Nat.mod_lt _ (by norm_num), h1⟩

theorem digit_char_ne_slash : ∀ d, d < 10 → Char.ofNat (48 + d) ≠ '/' := by
  decide

theorem decRepr_no_slash (n : Nat) : ∀ ch ∈ (decRepr n).data, ch ≠ '/' := by
  intro ch hch
  rw [decRepr, data_asString] at hch
  obtain ⟨d, hd, rfl⟩ := decDigits_chars (n + 1) n ch hch
  exact digit_char_ne_slash d hd

theorem decRepr_ne_empty (n : Nat) : (decRepr n).data ≠ [] := by
  rw [decRepr, data_asString]
  cases f : n + 1 with
  | zero => omega
  | succ f' =>
    rw [decDigits]
    by_cases h10 : n < 10
    · rw [if_pos h10]; simp
    · rw [if_neg h10]; simp

/-! ## Shape of the subject hash (eight lowercase hex characters) -/
theorem sha1_bytes_lt (msg : List Nat) : ∀ b ∈ sha1 msg, b < 256 := by
  intro b hb
  simp [sha1, be32] at hb
  omega

theorem subjectHash_data_shape (v : ASN1) :
    ∃ b0 b1 b2 b3,
      (sha1 (contentBytes (normalizeValue v))).take 4 = [b0, b1, b2, b3] ∧
      (subjectHash v).data =
        [hexDigit (b3 / 16), hexDigit (b3 % 16), hexDigit (b2 / 16),
         hexDigit (b2 % 16), hexDigit (b1 / 16), hexDigit (b1 % 16),
         hexDigit (b0 / 16), hexDigit (b0 % 16)] := by
  obtain ⟨b0, b1, b2, b3, hb⟩ := take4_shape
    (sha1 (contentBytes (normalizeValue v))) (by rw [sha1_length]; omega)
  refine ⟨b0, b1, b2, b3, hb, ?_⟩
  unfold subjectHash
  rw [hb]
  rfl

theorem subjectHash_length (v : ASN1) : (subjectHash v).data.length = 8 := by
  obtain ⟨b0, b1, b2, b3, _, hd⟩ := subjectHash_data_shape v
  rw [hd]
  rfl

theorem subjectHash_chars (v : ASN1) :
    ∀ ch ∈ (subjectHash v).data, ∃ m, m < 16 ∧ ch = hexDigit m := by
  obtain ⟨b0, b1, b2, b3, hb, hd⟩ := subjectHash_data_shape v
  have hmem : ∀ b ∈ [b0, b1, b2, b3], b < 256 := by
    intro b hbm
    exact sha1_bytes_lt _ b (List.take_subset 4 _ (hb ▸ hbm))
  have h0 := hmem b0 (by simp)
  have h1 := hmem b1 (by simp)
  have h2 := hmem b2 (by simp)
  have h3 := hmem b3 (by simp)
  rw [hd]
  intro ch hch
  simp only [List.mem_cons, List.not_mem_nil, or_false] at hch
  rcases hch with rfl | rfl | rfl | rfl | rfl | rfl | rfl | rfl
  exacts [⟨b3 / 16, by omega, rfl⟩, ⟨b3 % 16, by omega, rfl⟩,
    ⟨b2 / 16, by omega, rfl⟩, ⟨b2 % 16, by omega, rfl⟩,
    ⟨b1 / 16, by omega, rfl⟩, ⟨b1 % 16, by omega, rfl⟩,
    ⟨b0 / 16, by omega, rfl⟩, ⟨b0 % 16, by omega, rfl⟩]

theorem hexDigit_ne_slash : ∀ m, m < 16 → hexDigit m ≠ '/' := by decide

theorem goSplitSlash_no_slash (f : String) (h : '/' ∉ f.data) :
    goSplitSlash f = [f] := by
  unfold goSplitSlash
  rw [splitSep_no_sep '/' f.data h]
  rfl

theorem goIsAbs_no_slash (f : String) (hne : f ≠ "") (h : '/' ∉ f.data) :
    goIsAbs f = false := by
  unfold goIsAbs goHasPref
  cases hd : f.data with
  | nil => exact absurd (String.ext (by rw [hd])) hne
  | cons c cs =>
    have hc : c ≠ '/' := fun hcc => h (by rw [hd, hcc]; exact List.mem_cons_self _ _)
    show (['/'].isPrefixOf (c :: cs)) = false
    simp [List.isPrefixOf]
    exact fun hcc => hc hcc.symm

theorem goIsAbs_concat (a t : String) (ha : a ≠ "") :
    goIsAbs (a ++ t) = goIsAbs a := by
  unfold goIsAbs goHasPref
  cases hd : a.data with
  | nil => exact absurd (String.ext (by rw [hd])) ha
  | cons c cs =>
    have hdt : (a ++ t).data = c :: (cs ++ t.data) := by
      rw [String.data_append, hd]
      rfl
    rw [hdt]
    show (['/'].isPrefixOf (c :: (cs ++ t.data))) = (['/'].isPrefixOf (c :: cs))
    simp [List.isPrefixOf]

theorem cleanStack_snoc_plain (abs : Bool) (segs : List String) (f : String)
    (h1 : ¬(f = "" ∨ f = ".")) (h2 : f ≠ "..") :
    cleanStack abs (segs ++ [f]) = f :: cleanStack abs segs := by
  unfold cleanStack
  rw [List.foldl_append]
  simp only [List.foldl_cons, List.foldl_nil]
  rw [if_neg h1, if_neg h2]

theorem goPathJoin_plain (a f : String) (hne : f ≠ "") (hdot : f ≠ ".")
    (hdd : f ≠ "..") (hsl : '/' ∉ f.data) :
    goPathJoin a f = goPathJoinPre a ++ f := by
  have hplain : ¬(f = "" ∨ f = ".") := by
    push_neg
    exact ⟨hne, hdot⟩
  by_cases ha : a = ""
  · subst ha
    unfold goPathJoin goPathJoinPre
    rw [if_neg (fun hh => hne hh.2), if_pos rfl, if_pos rfl]
    unfold goPathClean
    rw [if_neg hne]
    simp only [goIsAbs_no_slash f hne hsl, goSplitSlash_no_slash f hsl]
    unfold cleanStack
    simp only [List.foldl_cons, List.foldl_nil]
    rw [if_neg hplain, if_neg hdd]
    simp [joinSlash_singleton]
  · unfold goPathJoin goPathJoinPre
    rw [if_neg (fun hh => ha hh.1), if_neg ha, if_neg hne, if_neg ha]
    have hne2 : (a ++ "/" ++ f) ≠ "" := by
      intro hcontra
      have hdc := congrArg String.data hcontra
      simp [String.data_append] at hdc
    have habs : goIsAbs (a ++ "/" ++ f) = goIsAbs a := by
      rw [goIsAbs_concat (a ++ "/") f (by
        intro hcontra
        have hdc := congrArg String.data hcontra
        simp [String.data_append] at hdc),
        goIsAbs_concat a "/" ha]
    have hsplit : goSplitSlash (a ++ "/" ++ f) = goSplitSlash a ++ [f] := by
      rw [goSplitSlash_append, goSplitSlash_no_slash f hsl]
    unfold goPathClean
    rw [if_neg hne2]
    simp only [habs, hsplit, cleanStack_snoc_plain _ _ _ hplain hdd,
      List.reverse_cons]
    have hne3 : (cleanStack (goIsAbs a) (goSplitSlash a)).reverse ++ [f] ≠ [] := by
      simp
    have hjdata : (joinSlash ((cleanStack (goIsAbs a) (goSplitSlash a)).reverse ++ [f])).data
        = (if (cleanStack (goIsAbs a) (goSplitSlash a)).reverse = [] then ""
           else joinSlash ((cleanStack (goIsAbs a) (goSplitSlash a)).reverse) ++ "/").data
          ++ f.data := by
      rcases hrev : (cleanStack (goIsAbs a) (goSplitSlash a)).reverse with _ | ⟨r, rs⟩
      · rw [List.nil_append, joinSlash_singleton, if_pos rfl]
        rfl
      · rw [if_neg (by simp),
          joinSlash_append _ _ (by simp) (by simp : ([f] : List String) ≠ [])]
        simp [String.data_append, joinSlash_singleton]
    cases hba : goIsAbs a <;>
      · rw [hba] at hjdata hne3
        apply String.ext
        simp [String.data_append, hne3, hjdata]

theorem goTrimLeftSlash_append_plain (P f : String) (hne : f ≠ "")
    (hsl : '/' ∉ f.data) :
    goTrimLeftSlash (P ++ f)
      = ((P.data.dropWhile (fun c => c = '/')) ++ f.data).asString := by
  unfold goTrimLeftSlash
  rw [String.data_append, List.dropWhile_append]
  by_cases hP : (P.data.dropWhile (fun c => c = '/')).isEmpty = true
  · rw [if_pos hP]
    rw [List.isEmpty_iff] at hP
    rw [hP, List.nil_append]
    cases hd : f.data with
    | nil => exact absurd (String.ext (by rw [hd])) hne
    | cons c cs =>
      have hc : ¬ (c = '/') := fun hcc => hsl (by rw [hd, hcc]; exact List.mem_cons_self _ _)
      rw [List.dropWhile_cons, if_neg (by simpa using hc)]
  · rw [if_neg hP]

theorem rehashFname_data (h : String) (n : Nat) :
    (rehashFname h n).data = h.data ++ '.' :: (decRepr n).data := by
  unfold rehashFname
  simp [String.data_append]

theorem rehashFname_plain (s : ASN1) (n : Nat) :
    rehashFname (subjectHash s) n ≠ "" ∧ rehashFname (subjectHash s) n ≠ "."
    ∧ rehashFname (subjectHash s) n ≠ ".."
    ∧ '/' ∉ (rehashFname (subjectHash s) n).data := by
  have hlen : 10 ≤ (rehashFname (subjectHash s) n).data.length := by
    rw [rehashFname_data]
    simp only [List.length_append, List.length_cons, subjectHash_length]
    have hd := decRepr_ne_empty n
    cases hdd : (decRepr n).data with
    | nil => exact absurd hdd hd
    | cons c cs =>
      simp only [hdd, List.length_cons]
      omega
  refine ⟨?_, ?_, ?_, ?_⟩
  · intro hcontra
    rw [hcontra] at hlen
    exact absurd hlen (by decide)
  · intro hcontra
    rw [hcontra] at hlen
    exact absurd hlen (by decide)
  · intro hcontra
    rw [hcontra] at hlen
    exact absurd hlen (by decide)
  · rw [rehashFname_data]
    intro hmem
    rcases List.mem_append.mp hmem with h1 | h1
    · obtain ⟨m, hm, hch⟩ := subjectHash_chars s '/' h1
      exact hexDigit_ne_slash m hm hch.symm
    · rcases List.mem_cons.mp h1 with h2 | h2
      · exact absurd h2.symm (by decide)
      · exact decRepr_no_slash n '/' h2 rfl

theorem rehashFname_inj (s₁ s₂ : ASN1) (n₁ n₂ : Nat)
    (h : rehashFname (subjectHash s₁) n₁ = rehashFname (subjectHash s₂) n₂) :
    subjectHash s₁ = subjectHash s₂ ∧ n₁ = n₂ := by
  have hd := congrArg String.data h
  rw [rehashFname_data, rehashFname_data] at hd
  obtain ⟨hh, ht⟩ := List.append_inj hd
    (by rw [subjectHash_length, subjectHash_length])
  have htl : (decRepr n₁).data = (decRepr n₂).data := by
    injection ht
  exact ⟨String.ext hh, decRepr_inj n₁ n₂ (String.ext htl)⟩

theorem rehashFpath_data (out : Output) (s : ASN1) (n : Nat) :
    (rehashFpath out (subjectHash s) n).data
      = ((goPathJoinPre out.path).data.dropWhile (fun c => c = '/'))
        ++ (rehashFname (subjectHash s) n).data := by
  obtain ⟨h1, h2, h3, h4⟩ := rehashFname_plain s n
  unfold rehashFpath
  rw [goPathJoin_plain _ _ h1 h2 h3 h4,
    goTrimLeftSlash_append_plain _ _ h1 h4, data_asString]

theorem rehashFpath_inj (out : Output) (s₁ s₂ : ASN1) (n₁ n₂ : Nat)
    (h : rehashFpath out (subjectHash s₁) n₁ = rehashFpath out (subjectHash s₂) n₂) :
    subjectHash s₁ = subjectHash s₂ ∧ n₁ = n₂ := by
  have hd := congrArg String.data h
  rw [rehashFpath_data, rehashFpath_data] at hd
  exact rehashFname_inj s₁ s₂ n₁ n₂ (String.ext (List.append_cancel_left hd))

theorem countGet_insert_self (count : List (String × Nat)) (k : String) (v : Nat) :
    countGet (insertVal k v count) k = v := by
  rw [countGet, findVal_insertVal_self]
  rfl

theorem countGet_insert_ne (count : List (String × Nat)) (k h : String) (v : Nat)
    (hne : k ≠ h) : countGet (insertVal k v count) h = countGet count h := by
  rw [countGet, findVal_insertVal_ne h k v count hne, countGet]

/-- Later iterations of the rehash loop never touch a payload key whose
collision index lies strictly below every current count for its hash. -/
theorem addRehashAux_preserve (out : Output) :
    ∀ (certs : List Cert) (count : List (String × Nat))
      (payload : List (String × FileProjection)) (s : ASN1) (m : Nat),
      (∀ c ∈ certs, subjectHash c.subject = subjectHash s →
        m < countGet count (subjectHash s)) →
      findVal (rehashFpath out (subjectHash s) m) (addRehashAux out certs count payload)
        = findVal (rehashFpath out (subjectHash s) m) payload := by
  intro certs
  induction certs with
  | nil => intro count payload s m _; rfl
  | cons c rest ih =>
    intro count payload s m hsafe
    show findVal _ (addRehashAux out rest _ _) = _
    rw [ih _ _ s m ?_]
    · apply findVal_insertVal_ne
      intro heq
      obtain ⟨hh, hn⟩ := rehashFpath_inj out c.subject s _ m heq
      have hlt := hsafe c (List.mem_cons_self _ _) hh
      rw [← hh] at hlt
      omega
    · intro c' hc' hh'
      have h1 := hsafe c' (List.mem_cons_of_mem _ hc') hh'
      by_cases hk : subjectHash c.subject = subjectHash s
      · rw [← hk] at h1 ⊢
        rw [countGet_insert_self]
        omega
      · rw [countGet_insert_ne _ _ _ _ hk]
        exact h1

/-- The heart of C9: after the loop, the payload binds, for every certificate
index `i`, the path built from its subject hash and its collision index
(offset by whatever the count map already recorded) to that certificate's PEM
with mode `0440` and the output's uid/gid. -/
theorem addRehashAux_lookup (out : Output) :
    ∀ (certs : List Cert) (count : List (String × Nat))
      (payload : List (String × FileProjection)) (i : Nat) (hi : i < certs.length),
      findVal
        (rehashFpath out (subjectHash (certs.get ⟨i, hi⟩).subject)
          (countGet count (subjectHash (certs.get ⟨i, hi⟩).subject)
            + collisionIdx certs i (subjectHash (certs.get ⟨i, hi⟩).subject)))
        (addRehashAux out certs count payload)
      = some ⟨(certs.get ⟨i, hi⟩).pem, 0o440, out.uid, out.gid⟩ := by
  intro certs
  induction certs with
  | nil => intro _ _ i hi; exact absurd hi (by simp)
  | cons c rest ih =>
    intro count payload i hi
    cases i with
    | zero =>
      show findVal (rehashFpath out (subjectHash c.subject)
          (countGet count (subjectHash c.subject) + 0))
        (addRehashAux out rest _ _) = some ⟨c.pem, 0o440, out.uid, out.gid⟩
      rw [Nat.add_zero]
      rw [addRehashAux_preserve out rest _ _ c.subject
        (countGet count (subjectHash c.subject)) ?_]
      · exact findVal_insertVal_self _ _ _
      · intro c' _ _
        rw [countGet_insert_self]
        omega
    | succ j =>
      have hj : j < rest.length := by simpa using hi
      have hih := ih
        (insertVal (subjectHash c.subject)
          (countGet count (subjectHash c.subject) + 1) count)
        (insertVal
          (rehashFpath out (subjectHash c.subject)
            (countGet count (subjectHash c.subject)))
          ⟨c.pem, 0o440, out.uid, out.gid⟩ payload)
        j hj
      have harith :
          countGet (insertVal (subjectHash c.subject)
              (countGet count (subjectHash c.subject) + 1) count)
              (subjectHash (rest.get ⟨j, hj⟩).subject)
            + collisionIdx rest j (subjectHash (rest.get ⟨j, hj⟩).subject)
          = countGet count (subjectHash (rest.get ⟨j, hj⟩).subject)
            + collisionIdx (c :: rest) (j + 1)
                (subjectHash (rest.get ⟨j, hj⟩).subject) := by
        have hcoll : collisionIdx (c :: rest) (j + 1)
            (subjectHash (rest.get ⟨j, hj⟩).subject)
            = collisionIdx rest j (subjectHash (rest.get ⟨j, hj⟩).subject)
              + if subjectHash c.subject = subjectHash (rest.get ⟨j, hj⟩).subject
                then 1 else 0 := by
          unfold collisionIdx
          rw [List.take_succ_cons, List.countP_cons]
          by_cases hch : subjectHash c.subject = subjectHash (rest.get ⟨j, hj⟩).subject
          · rw [if_pos hch, if_pos (by simpa using hch)]
          · rw [if_neg hch, if_neg (by simpa using hch)]
        rw [hcoll]
        by_cases hch : subjectHash c.subject = subjectHash (rest.get ⟨j, hj⟩).subject
        · rw [if_pos hch, ← hch, countGet_insert_self]
          omega
        · rw [if_neg hch, countGet_insert_ne _ _ _ _ hch]
          omega
      show findVal
        (rehashFpath out (subjectHash (rest.get ⟨j, hj⟩).subject)
          (countGet count (subjectHash (rest.get ⟨j, hj⟩).subject)
            + collisionIdx (c :: rest) (j + 1)
                (subjectHash (rest.get ⟨j, hj⟩).subject)))
        (addRehashAux out rest _ _)
        = some ⟨(rest.get ⟨j, hj⟩).pem, 0o440, out.uid, out.gid⟩
      rw [← harith]
      exact hih

theorem collisionIdx_strict (certs : List Cert) (i j : Nat) (hi : i < certs.length)
    (hij : i < j) :
    collisionIdx certs i (subjectHash (certs.get ⟨i, hi⟩).subject)
      < collisionIdx certs j (subjectHash (certs.get ⟨i, hi⟩).subject) := by
  have hsub : certs.get ⟨i, hi⟩ ∈ (certs.drop i).take (j - i) := by
    rw [List.drop_eq_getElem_cons hi,
      show j - i = (j - i - 1) + 1 from by omega, List.take_succ_cons]
    exact List.mem_cons_self _ _
  have hpos : 0 < List.countP
      (fun c => subjectHash c.subject
        == subjectHash (certs.get ⟨i, hi⟩).subject) ((certs.drop i).take (j - i)) :=
    List.countP_pos_iff.mpr ⟨_, hsub, by simp⟩
  have hsplit : List.countP
      (fun c => subjectHash c.subject
        == subjectHash (certs.get ⟨i, hi⟩).subject) (certs.take j)
      = List.countP (fun c => subjectHash c.subject
          == subjectHash (certs.get ⟨i, hi⟩).subject) (certs.take i)
        + List.countP (fun c => subjectHash c.subject
            == subjectHash (certs.get ⟨i, hi⟩).subject)
            ((certs.drop i).take (j - i)) := by
    conv_lhs => rw [show j = i + (j - i) from by omega]
    rw [List.take_add, List.countP_append]
  unfold collisionIdx
  omega

/-- C9: rendering in openssl-rehash format gives each certificate its own
payload file named `<hash>.<collision-index>` under the output's target
directory — the collision index of certificate `i` counts the earlier
certificates with the same subject hash, starting at 0 — and that file holds
that certificate's PEM with mode `0440` and the output's uid/gid; the paths of
distinct certificates are distinct, so in particular two certificates with
identical subject hash yield `<hash>.0` and `<hash>.1`, neither overwriting
the other. -/
theorem rehash_one_file_per_cert (certs : List Cert) (out : Output)
    (payload : List (String × FileProjection)) :
    (∀ i (hi : i < certs.length),
      findVal
        (rehashFpath out (subjectHash (certs.get ⟨i, hi⟩).subject)
          (collisionIdx certs i (subjectHash (certs.get ⟨i, hi⟩).subject)))
        (addRehashFilesToPayload certs out payload)
      = some ⟨(certs.get ⟨i, hi⟩).pem, 0o440, out.uid, out.gid⟩)
    ∧ (∀ i j (hi : i < certs.length) (hj : j < certs.length), i < j →
        rehashFpath out (subjectHash (certs.get ⟨i, hi⟩).subject)
            (collisionIdx certs i (subjectHash (certs.get ⟨i, hi⟩).subject))
          ≠ rehashFpath out (subjectHash (certs.get ⟨j, hj⟩).subject)
              (collisionIdx certs j (subjectHash (certs.get ⟨j, hj⟩).subject))) := by
  constructor
  · intro i hi
    have h := addRehashAux_lookup out certs [] payload i hi
    simpa [countGet, findVal] using h
  · intro i j hi hj hij heq
    obtain ⟨hh, hn⟩ := rehashFpath_inj out _ _ _ _ heq
    have hlt := collisionIdx_strict certs i j hi hij
    rw [hh] at hlt hn
    omega

/-- C9 witness: two certificates with the same subject hash produce two
distinct payload entries, `<hash>.0` holding the first PEM and `<hash>.1`
holding the second. -/
theorem rehash_one_file_per_cert_witness :
    findVal (rehashFpath wRehashOut (subjectHash (.prim 12 [97])) 0)
        (addRehashFilesToPayload [wRehashCertA, wRehashCertB] wRehashOut [])
      = some ⟨[1, 2], 0o440, none, none⟩
    ∧ findVal (rehashFpath wRehashOut (subjectHash (.prim 12 [97]))
          (collisionIdx [wRehashCertA, wRehashCertB] 1
            (subjectHash (.prim 12 [97]))))
        (addRehashFilesToPayload [wRehashCertA, wRehashCertB] wRehashOut [])
      = some ⟨[3, 4], 0o440, none, none⟩
    ∧ collisionIdx [wRehashCertA, wRehashCertB] 1 (subjectHash (.prim 12 [97])) = 1
    ∧ rehashFpath wRehashOut (subjectHash (.prim 12 [97])) 0
      ≠ rehashFpath wRehashOut (subjectHash (.prim 12 [97]))
          (collisionIdx [wRehashCertA, wRehashCertB] 1
            (subjectHash (.prim 12 [97]))) :=
  ⟨(rehash_one_file_per_cert [wRehashCertA, wRehashCertB] wRehashOut []).1 0
      (by decide),
   (rehash_one_file_per_cert [wRehashCertA, wRehashCertB] wRehashOut []).1 1
      (by decide),
   by
     unfold collisionIdx wRehashCertA wRehashCertB
     simp,
   (rehash_one_file_per_cert [wRehashCertA, wRehashCertB] wRehashOut []).2 0 1
      (by decide) (by decide) (by decide)⟩

end TrustCSI
